import Mathlib

set_option maxRecDepth 20000

/-!
Verification development for lfpsplitter (src/lfpsplitter.c).

The C program splits a Lytro .lfp container into a metadata blob, a
depth-table text file and a sequence of jpeg payloads.  This file embeds
the core routines of the program as executable Lean definitions over a
byte buffer modelled as a list of natural numbers (one entry per byte,
values 0..255 in every concrete input), and proves properties of those
definitions.

Conventions of the embedding:
- a buffer position is a pair (ptr, len): ptr is the absolute offset of
  the cursor inside the buffer and len the number of bytes remaining,
  mirroring the (char *ptr, int len) pair the C code threads through
  parse_section and main;
- reads of a byte use List.getD with default 0; every in-bounds read is
  independent of that default;
- the C int arithmetic is modelled with Nat where the C values are
  provably non-negative on all paths the program can reach, and with
  wrapping Int arithmetic where signed overflow matters (the allocation
  size 20*len/4 of depth_string);
- allocation (malloc/calloc) is assumed to succeed; the C early returns
  on allocation failure produce no observable record and are not part of
  the parsing semantics.
-/

/-! Header layout constants, named as the C macros. -/

def SHA1_LENGTH : Nat := 45

def MAGIC_LENGTH : Nat := 12

def BLANK_LENGTH : Nat := 35

/-- Total size of a record header: 12-byte magic region, 4-byte length,
45-byte sha1 string, 35-byte blank region (96 bytes). -/
def HEADER_SIZE : Nat := MAGIC_LENGTH + 4 + SHA1_LENGTH + BLANK_LENGTH

/-- ntohl of the four bytes at offset p: big-endian unsigned 32-bit decode,
as in `section->len = ntohl(*(uint32_t *)ptr)`. -/
def beU32At (buf : List Nat) (p : Nat) : Nat :=
  16777216 * buf.getD p 0 + 65536 * buf.getD (p + 1) 0 +
    256 * buf.getD (p + 2) 0 + buf.getD (p + 3) 0

/-- Little-endian (host order on the target platform) 32-bit assembly of
four bytes, the bit pattern read by `*(float *)(data+i*4)`. -/
def leU32 (b0 b1 b2 b3 : Nat) : Nat :=
  b0 + 256 * b1 + 65536 * b2 + 16777216 * b3

/-! ## Magic Validator: lfp_file_check -/

/-- The fixed 8-byte signature {0x89,'L','F','P',0x0D,0x0A,0x1A,0x0A}. -/
def lfpMagic : List Nat := [137, 76, 70, 80, 13, 10, 26, 10]

/-- `static int lfp_file_check(const char *lfp, int len)`: true iff
len > 8 and memcmp(lfp, magic, 8) == 0. -/
def lfp_file_check (lfp : List Nat) (len : Nat) : Bool :=
  decide (8 < len) && decide (lfp.take 8 = lfpMagic)

/-! ## Record Parser: parse_section -/

/-- One parsed record, as struct lfp_section (declared in lfpsplitter.h,
which is not part of the sources; field shapes follow the spec data
model: 4-byte type tag, unsigned 32-bit length, 45-byte sha1 string,
payload of exactly `len` bytes). -/
structure lfp_section where
  type : List Nat
  len : Nat
  sha1 : List Nat
  data : List Nat
deriving DecidableEq

instance : Inhabited lfp_section := ⟨⟨[], 0, [], []⟩⟩

/-- Result state of the zero-padding skip loop
`while (*ptr == '\0' && len) { ptr++; len--; }`.
The loop exits when len reaches 0 or the current byte is non-zero. -/
def skipZeros (buf : List Nat) : Nat → Nat → Nat × Nat
  | ptr, 0 => (ptr, 0)
  | ptr, len + 1 =>
    if buf.getD ptr 0 = 0 then skipZeros buf (ptr + 1) len else (ptr, len + 1)

/-- The sequence of byte offsets the skip loop READS.  The C condition
`*ptr == '\0' && len` dereferences ptr before testing len, so the offset
is recorded even in the iteration in which len is 0. -/
def skipZerosReads (buf : List Nat) : Nat → Nat → List Nat
  | ptr, 0 => [ptr]
  | ptr, len + 1 =>
    ptr :: (if buf.getD ptr 0 = 0 then skipZerosReads buf (ptr + 1) len else [])

/-- `static lfp_section_p parse_section(char **lfp, int *in_len)`.
Returns the parsed record together with the caller-visible state
(ptr, len): the C function writes *lfp and *in_len only on success, so
on failure the returned state is the original one.  Steps, as in the
source: skip zero padding; fail if len <= 96; copy the 4 type bytes;
decode the big-endian length at offset +12; copy the 45 sha1 bytes at
offset +16; skip to offset +96; fail if fewer than `declared` bytes
remain; copy the payload and advance. -/
def parse_section (buf : List Nat) (ptr len : Nat) :
    Option lfp_section × Nat × Nat :=
  let pl := skipZeros buf ptr len
  let p := pl.1
  let l := pl.2
  if l ≤ HEADER_SIZE then (none, ptr, len)
  else
    let declared := beU32At buf (p + MAGIC_LENGTH)
    if l - HEADER_SIZE < declared then (none, ptr, len)
    else
      (some { type := (buf.drop p).take 4
              len := declared
              sha1 := (buf.drop (p + MAGIC_LENGTH + 4)).take SHA1_LENGTH
              data := (buf.drop (p + HEADER_SIZE)).take declared },
       p + HEADER_SIZE + declared, l - HEADER_SIZE - declared)

/-! ## Depth Table Decoder: depth_string -/

/-- Decimal digit to character. -/
def digitChar (n : Nat) : Char := Char.ofNat (48 + n)

/-- Decimal digits of n, most significant first; fuel-indexed structural
recursion (fuel n + 1 always suffices). -/
def natDigitsAux : Nat → Nat → List Char
  | 0, _ => []
  | fuel + 1, n =>
    if n < 10 then [digitChar n]
    else natDigitsAux fuel (n / 10) ++ [digitChar (n % 10)]

def natDigits (n : Nat) : List Char := natDigitsAux (n + 1) n

/-- Digits of n padded on the left with zeros to width 6 (the fractional
part of the %f rendering). -/
def pad6 (n : Nat) : List Char :=
  List.replicate (6 - (natDigits n).length) '0' ++ natDigits n

/-- Rounding of the rational q/d (d positive) to the nearest integer,
ties to even: the correct rounding used by the C library when printing
a binary floating-point value with %f. -/
def roundHalfEven (q d : Nat) : Nat :=
  let a := q / d
  let r := q % d
  if 2 * r < d then a
  else if d < 2 * r then a + 1
  else if a % 2 = 0 then a else a + 1

/-- The text snprintf(.., "%f", x) produces for the IEEE-754 single
precision value with the given 32-bit pattern: sign, integer part, dot,
six fractional digits (the exact binary value rounded to 6 decimals);
"inf"/"nan" for the maximal exponent.  Modelled from the C library
semantics of the %f conversion used at src/lfpsplitter.c line 126. -/
def fmtFloatBits (bits : Nat) : List Char :=
  let s : Nat := bits / 2 ^ 31 % 2
  let e : Nat := bits / 2 ^ 23 % 256
  let m : Nat := bits % 2 ^ 23
  let sign : List Char := if s = 1 then ['-'] else []
  if e = 255 then
    sign ++ (if m = 0 then ['i', 'n', 'f'] else ['n', 'a', 'n'])
  else
    let M := if e = 0 then m else 2 ^ 23 + m
    let E : Int := (if e = 0 then 1 else (e : Int)) - 127 - 23
    let N :=
      if 0 ≤ E then M * 2 ^ E.toNat * 1000000
      else roundHalfEven (M * 1000000) (2 ^ (-E).toNat)
    sign ++ natDigits (N / 1000000) ++ ['.'] ++ pad6 (N % 1000000)

/-- Bit pattern of sample i of the payload: the four bytes at data+i*4,
host (little-endian) order. -/
def sampleBits (data : List Nat) (i : Nat) : Nat :=
  leU32 (data.getD (4 * i) 0) (data.getD (4 * i + 1) 0)
    (data.getD (4 * i + 2) 0) (data.getD (4 * i + 3) 0)

/-- The bytes one loop iteration appends to the output:
snprintf(val, 20, "%f\n", ..) writes at most 19 characters plus a NUL,
and strncpy copies strlen(val) of them, i.e. the full rendering plus
newline truncated to its first 19 bytes. -/
def depthLine (data : List Nat) (i : Nat) : List Char :=
  ((fmtFloatBits (sampleBits data i)) ++ ['\n']).take 19

/-- The accumulation loop `for (i = 0; i < len/4; i++)` of depth_string:
argument order is (current sample index, iterations left, bytes written
so far). -/
def depthLoopAux (data : List Nat) : Nat → Nat → List Char → List Char
  | _, 0, acc => acc
  | i, k + 1, acc => depthLoopAux data (i + 1) k (acc ++ depthLine data i)

/-- Number of loop iterations: len/4 with C int division (no iterations
for negative len). -/
def depth_nsamples (len : Int) : Nat := (Int.tdiv len 4).toNat

/-- The bytes depth_string writes into the output buffer after the
initial terminator. -/
def depth_out (data : List Nat) (len : Int) : List Char :=
  depthLoopAux data 0 (depth_nsamples len) []

/-- `static char *depth_string(const char *data, int *datalen, int len)`:
the returned buffer content, and the value stored in *datalen
(depth - start, the total number of bytes the loop wrote). -/
def depth_string (data : List Nat) (len : Int) : List Char × Nat :=
  (depth_out data len, (depth_out data len).length)

/-- The chunks the loop writes, one per sample, in sample order. -/
def depthLines (data : List Nat) (len : Int) : List (List Char) :=
  (List.range (depth_nsamples len)).map (depthLine data)

/-- Wrapping of an integer into the signed 32-bit range, the behaviour
of int overflow on the target. -/
def wrap32 (x : Int) : Int := (x + 2 ^ 31) % 2 ^ 32 - 2 ^ 31

/-- `int filelen = 20*len/4;`: the allocation size depth_string requests,
with the int multiplication wrapping and C truncating division. -/
def depth_filelen (len : Int) : Int := Int.tdiv (wrap32 (20 * len)) 4

/-- Exclusive upper bound of the byte offsets depth_string writes in the
allocated buffer: offset 0 always (depth[0] = '\0') plus the loop
output. -/
def depth_writeCount (data : List Nat) (len : Int) : Nat :=
  max 1 (depth_out data len).length

/-! ## strtof: the C library parse of a %f-formatted line

The round-trip property of the spec needs a model of what the C
library does when a line written by depth_string is read back with a
float parser: the numeric text denotes the exact decimal N/10^6, and
strtof returns the IEEE-754 single nearest to that value (correct
rounding to nearest, ties to even — C99 Annex F, the behaviour of the
target C library), stopping at the first character that cannot extend
the number (here the newline).  The definitions below model that
parse and the re-encoding of its result. -/

/-- Sign bit of a 32-bit pattern. -/
def floatSignBit (b : Nat) : Nat := b / 2 ^ 31 % 2

/-- Exponent field of a 32-bit pattern. -/
def floatExpField (b : Nat) : Nat := b / 2 ^ 23 % 256

/-- Mantissa field of a 32-bit pattern. -/
def floatFrac (b : Nat) : Nat := b % 2 ^ 23

/-- Integral significand A of a finite pattern: the magnitude is
A·2^E. -/
def floatSig (b : Nat) : Nat :=
  if floatExpField b = 0 then floatFrac b else 2 ^ 23 + floatFrac b

/-- Exponent E of a finite pattern: the magnitude is A·2^E. -/
def floatExpE (b : Nat) : Int :=
  (if floatExpField b = 0 then 1 else (floatExpField b : Int)) - 127 - 23

/-- The 6-fractional-digit rounding of the magnitude A·2^E: the
integer N whose printed value is N/10^6 — exactly the N computed
inside fmtFloatBits. -/
def floatN (A : Nat) (E : Int) : Nat :=
  if 0 ≤ E then A * 2 ^ E.toNat * 1000000
  else roundHalfEven (A * 1000000) (2 ^ (-E).toNat)

/-- Magnitude A·2^E as a rational. -/
def floatQ (A : Nat) (E : Int) : ℚ := (A : ℚ) * 2 ^ E

/-- Fold decimal digit characters into a number. -/
def digitsToNat : List Char → Nat → Nat
  | [], acc => acc
  | c :: cs, acc => digitsToNat cs (acc * 10 + (c.toNat - 48))

/-- Value, scaled by 10^6, of a fixed-point decimal string of the
shape depth_string writes: integer digits, one dot, six fractional
digits. -/
def parseFixed (l : List Char) : Nat :=
  digitsToNat (l.takeWhile (fun c => c != '.')) 0 * 1000000 +
    digitsToNat ((l.dropWhile (fun c => c != '.')).drop 1) 0

/-- 2^k ≤ N/10^6, in integer arithmetic for either sign of k. -/
def pow2le (k : Int) (N : Nat) : Bool :=
  if 0 ≤ k then decide (2 ^ k.toNat * 1000000 ≤ N)
  else decide (1000000 ≤ N * 2 ^ (-k).toNat)

/-- floor(log2(N/10^6)) for 1 ≤ N: Nat.log2 gives the binade of N and
one comparison corrects for the 10^6 scale (2^19 < 10^6 < 2^20). -/
def ilog2Frac (N : Nat) : Int :=
  if pow2le ((Nat.log2 N : Int) - 19) N then (Nat.log2 N : Int) - 19
  else (Nat.log2 N : Int) - 20

/-- The correctly rounded binary32 magnitude (A, E) for the value
N/10^6, 1 ≤ N: E fixes the binade of the value, A rounds N/10^6/2^E
to the nearest integer, ties to even; a round-up to A = 2^24 is kept
unnormalised here (the value is unchanged and the encoder carries). -/
def nearestFloatMag (N : Nat) : Nat × Int :=
  (if 0 ≤ ilog2Frac N - 23 then
     roundHalfEven N (1000000 * 2 ^ (ilog2Frac N - 23).toNat)
   else roundHalfEven (N * 2 ^ (-(ilog2Frac N - 23)).toNat) 1000000,
   ilog2Frac N - 23)

/-- 32-bit pattern (sign clear) of a normal magnitude A·2^E with A in
[2^23, 2^24]; A = 2^24 carries into the next binade, same value. -/
def encodeMagBits (A : Nat) (E : Int) : Nat :=
  if A = 2 ^ 24 then (E + 151).toNat * 2 ^ 23
  else (E + 150).toNat * 2 ^ 23 + (A - 2 ^ 23)

/-- strtof on the magnitude text of one line: inf and nan by their
leading letter, otherwise the correctly rounded value of the decimal
(the zero pattern when the decimal is zero). -/
def strtofMagBits (l : List Char) : Nat :=
  if l.head? = some 'i' then 255 * 2 ^ 23
  else if l.head? = some 'n' then 255 * 2 ^ 23 + 2 ^ 22
  else if parseFixed l = 0 then 0
  else encodeMagBits (nearestFloatMag (parseFixed l)).1
    (nearestFloatMag (parseFixed l)).2

/-- strtof on one line: an optional minus sign, then the magnitude. -/
def strtofBits (l : List Char) : Nat :=
  if l.head? = some '-' then 2 ^ 31 + strtofMagBits (l.drop 1)
  else strtofMagBits l

/-- The text strtof reads from one written chunk: everything before
the newline. -/
def floatTextOf (chunk : List Char) : List Char :=
  chunk.takeWhile (fun c => c != '\n')

/-! ## Extraction Driver: main -/

/-- The record-collection loop of main:
`while (len > 0) { section = parse_section(&ptr, &len); if (!section) break; .. }`.
Fuel-indexed structural recursion; any fuel greater than len produces
the same list (lemma parseLoopAux_fuel below), and the driver entry
point passes len + 1. -/
def parseLoopAux (buf : List Nat) : Nat → Nat → Nat → List lfp_section
  | 0, _, _ => []
  | fuel + 1, ptr, len =>
    if len = 0 then []
    else
      match parse_section buf ptr len with
      | (none, _, _) => []
      | (some s, p', l') => s :: parseLoopAux buf fuel p' l'

/-- The ordered sequence of records main collects from a buffer: the
cursor starts past the 16-byte primary header
(`ptr += MAGIC_LENGTH + sizeof(uint32_t); len -= ..;`). -/
def lfpsplitter_records (buf : List Nat) : List lfp_section :=
  parseLoopAux buf (buf.length - 16 + 1) 16 (buf.length - 16)

/-- The (ptr, len) states at the head of the while loop of main, in
order; the first entry is the state right after the primary-header
skip `len -= MAGIC_LENGTH + sizeof(uint32_t)`.  The remaining length
is the C int counter, which is NEGATIVE for a file of 9-15 bytes that
passes the magic check (length > 8): the skip consumes 16 bytes of a
shorter buffer.  The loop guard `len > 0` then keeps the body from
running, so lfpsplitter_records (whose Nat length clamps at 0) still
collects the same records, but the negative state itself is reached
and is recorded here. -/
def mainStatesAux (buf : List Nat) : Nat → Nat → Int → List (Nat × Int)
  | 0, ptr, len => [(ptr, len)]
  | fuel + 1, ptr, len =>
    (ptr, len) ::
      (if len ≤ 0 then []
       else
         match parse_section buf ptr len.toNat with
         | (none, _, _) => []
         | (some _, p', l') => mainStatesAux buf fuel p' (l' : Int))

def lfpsplitter_mainStates (buf : List Nat) : List (Nat × Int) :=
  mainStatesAux buf buf.length 16 ((buf.length : Int) - 16)

/-- Conversion of the unsigned 32-bit record length to the C int
parameter of depth_string. -/
def intOfUInt32 (n : Nat) : Int := if n < 2 ^ 31 then (n : Int) else (n : Int) - 2 ^ 32

/-- What main does with the parsed records. -/
inductive RunResult where
  | noImages : RunResult
  | extracted (metadata : List Nat) (depthText : List Char)
      (images : List (List Nat)) : RunResult
deriving DecidableEq

/-- The classification main performs once the loop has stopped:
record 0 is the metadata output, record 1 goes through depth_string,
records 2.. are the jpegs in order; with at most 2 records it prints
"no images found". -/
def lfpsplitter_run (buf : List Nat) : RunResult :=
  let secs := lfpsplitter_records buf
  if 2 < secs.length then
    RunResult.extracted (secs.getD 0 default).data
      (depth_out (secs.getD 1 default).data (intOfUInt32 (secs.getD 1 default).len))
      ((secs.drop 2).map lfp_section.data)
  else RunResult.noImages

/-- Exit code and outcome of main on a loaded buffer: 1 if the magic
check fails, otherwise 0 (also when no images were found). -/
def lfpsplitter_main (buf : List Nat) : Nat × Option RunResult :=
  if lfp_file_check buf buf.length then (0, some (lfpsplitter_run buf)) else (1, none)

/-! ## Lemmas about the zero-padding skip -/

theorem skipZeros_sum (buf : List Nat) :
    ∀ (len ptr : Nat),
      (skipZeros buf ptr len).1 + (skipZeros buf ptr len).2 = ptr + len
  | 0, ptr => by simp [skipZeros]
  | n + 1, ptr => by
    simp only [skipZeros]
    split
    · have h := skipZeros_sum buf n (ptr + 1)
      omega
    · rfl

theorem skipZeros_le (buf : List Nat) :
    ∀ (len ptr : Nat), (skipZeros buf ptr len).2 ≤ len
  | 0, ptr => by simp [skipZeros]
  | n + 1, ptr => by
    simp only [skipZeros]
    split
    · have h := skipZeros_le buf n (ptr + 1)
      omega
    · exact Nat.le_refl _

/-! ## Lemmas about parse_section -/

theorem parse_section_cases (buf : List Nat) (ptr len : Nat) :
    parse_section buf ptr len = (none, ptr, len) ∨
      ∃ s p' l', parse_section buf ptr len = (some s, p', l') := by
  simp only [parse_section]
  split
  · exact Or.inl rfl
  · split
    · exact Or.inl rfl
    · exact Or.inr ⟨_, _, _, rfl⟩

theorem parse_section_none_eq {buf : List Nat} {ptr len : Nat}
    (h : (parse_section buf ptr len).1 = none) :
    parse_section buf ptr len = (none, ptr, len) := by
  rcases parse_section_cases buf ptr len with h' | ⟨s, p', l', h'⟩
  · exact h'
  · rw [h'] at h
    simp at h

theorem parse_section_some_eq {buf : List Nat} {ptr len : Nat}
    {s : lfp_section} {p' l' : Nat}
    (h : parse_section buf ptr len = (some s, p', l')) :
    HEADER_SIZE < (skipZeros buf ptr len).2 ∧
    beU32At buf ((skipZeros buf ptr len).1 + MAGIC_LENGTH) ≤
      (skipZeros buf ptr len).2 - HEADER_SIZE ∧
    s.len = beU32At buf ((skipZeros buf ptr len).1 + MAGIC_LENGTH) ∧
    s.data = (buf.drop ((skipZeros buf ptr len).1 + HEADER_SIZE)).take s.len ∧
    p' = (skipZeros buf ptr len).1 + HEADER_SIZE + s.len ∧
    l' = (skipZeros buf ptr len).2 - HEADER_SIZE - s.len := by
  simp only [parse_section] at h
  split at h
  · simp at h
  · split at h
    · simp at h
    · rename_i hc1 hc2
      simp only [Prod.mk.injEq, Option.some.injEq] at h
      obtain ⟨hs, hp, hl⟩ := h
      subst hs hp hl
      refine ⟨by omega, by omega, rfl, rfl, rfl, rfl⟩

theorem parse_section_some_sum {buf : List Nat} {ptr len : Nat}
    {s : lfp_section} {p' l' : Nat}
    (h : parse_section buf ptr len = (some s, p', l')) :
    p' + l' = ptr + len := by
  obtain ⟨h1, h2, h3, _, h5, h6⟩ := parse_section_some_eq h
  have hsum := skipZeros_sum buf len ptr
  omega

theorem parse_section_some_lt {buf : List Nat} {ptr len : Nat}
    {s : lfp_section} {p' l' : Nat}
    (h : parse_section buf ptr len = (some s, p', l')) :
    l' < len := by
  obtain ⟨h1, _, _, _, _, h6⟩ := parse_section_some_eq h
  have hle := skipZeros_le buf len ptr
  have hH : HEADER_SIZE = 96 := rfl
  omega

/-! ## Lemmas about the record-collection loop of main -/

theorem parseLoopAux_fuel (buf : List Nat) :
    ∀ (len f1 f2 ptr : Nat), len < f1 → len < f2 →
      parseLoopAux buf f1 ptr len = parseLoopAux buf f2 ptr len := by
  intro len
  induction len using Nat.strong_induction_on with
  | _ len ih =>
    intro f1 f2 ptr h1 h2
    match f1, f2 with
    | g1 + 1, g2 + 1 =>
      simp only [parseLoopAux]
      by_cases hlen : len = 0
      · simp [hlen]
      · rw [if_neg hlen, if_neg hlen]
        rcases hps : parse_section buf ptr len with ⟨os, p', l'⟩
        cases os with
        | none => rfl
        | some s =>
          have hlt : l' < len := parse_section_some_lt hps
          show s :: parseLoopAux buf g1 p' l' = s :: parseLoopAux buf g2 p' l'
          rw [ih l' hlt g1 g2 p' (by omega) (by omega)]

theorem mainStatesAux_inv (buf : List Nat) :
    ∀ (fuel ptr : Nat) (len : Int), (ptr : Int) + len = buf.length → 0 ≤ len →
      ∀ (p : Nat) (l : Int), (p, l) ∈ mainStatesAux buf fuel ptr len →
        (p : Int) + l = buf.length ∧ 0 ≤ l := by
  intro fuel
  induction fuel with
  | zero =>
    intro ptr len h h0 p l hm
    simp only [mainStatesAux, List.mem_singleton, Prod.mk.injEq] at hm
    obtain ⟨e1, e2⟩ := hm
    subst e1 e2
    exact ⟨h, h0⟩
  | succ n ih =>
    intro ptr len h h0 p l hm
    simp only [mainStatesAux] at hm
    rcases List.mem_cons.mp hm with h1 | h2
    · rw [Prod.mk.injEq] at h1
      obtain ⟨e1, e2⟩ := h1
      subst e1 e2
      exact ⟨h, h0⟩
    · by_cases hlen : len ≤ 0
      · rw [if_pos hlen] at h2
        exact absurd h2 (List.not_mem_nil _)
      · rw [if_neg hlen] at h2
        rcases hps : parse_section buf ptr len.toNat with ⟨os, p', l'⟩
        rw [hps] at h2
        cases os with
        | none => exact absurd h2 (List.not_mem_nil _)
        | some s =>
          have hsum : p' + l' = ptr + len.toNat := parse_section_some_sum hps
          have hcast : ((len.toNat : Nat) : Int) = len :=
            Int.toNat_of_nonneg (by omega)
          refine ih p' (l' : Int) ?_ (Int.natCast_nonneg _) p l h2
          have hc : ((p' : Nat) : Int) + ((l' : Nat) : Int) =
              ((ptr : Nat) : Int) + ((len.toNat : Nat) : Int) := by
            exact_mod_cast hsum
          rw [hcast] at hc
          omega

/-! ## Lemmas about the depth decoder -/

theorem depthLoopAux_eq (data : List Nat) :
    ∀ (k i : Nat) (acc : List Char),
      depthLoopAux data i k acc =
        acc ++ ((List.range k).map (fun j => depthLine data (i + j))).flatten
  | 0, i, acc => by simp [depthLoopAux]
  | k + 1, i, acc => by
    simp only [depthLoopAux]
    rw [depthLoopAux_eq data k (i + 1) (acc ++ depthLine data i)]
    rw [List.range_succ_eq_map, List.map_cons, List.map_map, List.flatten_cons]
    have harg : ((fun j => depthLine data (i + j)) ∘ Nat.succ) =
        fun j => depthLine data (i + 1 + j) := by
      funext j
      simp only [Function.comp]
      congr 1
      omega
    rw [harg]
    simp [List.append_assoc]

theorem depth_out_eq (data : List Nat) (len : Int) :
    depth_out data len = (depthLines data len).flatten := by
  unfold depth_out depthLines
  rw [depthLoopAux_eq]
  simp

theorem depthLine_length_le (data : List Nat) (i : Nat) :
    (depthLine data i).length ≤ 19 := by
  unfold depthLine
  rw [List.length_take]
  omega

theorem depth_out_length_le (data : List Nat) (len : Int) :
    (depth_out data len).length ≤ 19 * depth_nsamples len := by
  rw [depth_out_eq, List.length_flatten]
  unfold depthLines
  rw [List.map_map]
  have h := List.sum_le_card_nsmul
    ((List.range (depth_nsamples len)).map (List.length ∘ depthLine data)) 19 ?_
  · simpa [List.length_map, List.length_range, smul_eq_mul, Nat.mul_comm] using h
  · intro x hx
    simp only [List.mem_map, Function.comp] at hx
    obtain ⟨j, _, rfl⟩ := hx
    exact depthLine_length_le data j

theorem nsamples_cast (n : Nat) : depth_nsamples (n : Int) = n / 4 := by
  unfold depth_nsamples
  rw [Int.tdiv_eq_ediv (by positivity) (by norm_num)]
  omega

theorem getD_replicate_zero : ∀ (n k : Nat), (List.replicate n (0 : Nat)).getD k 0 = 0
  | 0, _ => by simp [List.getD]
  | n + 1, 0 => by simp [List.replicate]
  | n + 1, k + 1 => by
    simp only [List.replicate, List.getD_cons_succ]
    exact getD_replicate_zero n k

theorem depthLine_replicate_zero (n i : Nat) :
    depthLine (List.replicate n 0) i =
      ['0', '.', '0', '0', '0', '0', '0', '0', '\n'] := by
  unfold depthLine sampleBits leU32
  rw [getD_replicate_zero, getD_replicate_zero, getD_replicate_zero,
    getD_replicate_zero]
  decide

theorem depth_out_replicate_len (L : Nat) :
    (depth_out (List.replicate L 0) (L : Int)).length =
      9 * depth_nsamples (L : Int) := by
  rw [depth_out_eq, List.length_flatten]
  unfold depthLines
  rw [List.map_map]
  have h : (List.length ∘ depthLine (List.replicate L 0)) = fun _ : Nat => 9 := by
    funext j
    simp [Function.comp, depthLine_replicate_zero]
  rw [h, List.map_const', List.sum_replicate]
  simp [List.length_range, Nat.mul_comm]

theorem wrap32_eq_of_bounds {x : Int} (h0 : -2 ^ 31 ≤ x) (h1 : x < 2 ^ 31) :
    wrap32 x = x := by
  unfold wrap32
  have h31 : (2 : Int) ^ 31 = 2147483648 := by norm_num
  have h32 : (2 : Int) ^ 32 = 4294967296 := by norm_num
  rw [h31, h32] at *
  rw [Int.emod_eq_of_lt (by omega) (by omega)]
  omega

theorem depth_filelen_nowrap {len : Int} (h0 : 0 ≤ len)
    (h1 : 20 * len < 2 ^ 31) :
    depth_filelen len = 5 * len := by
  unfold depth_filelen
  rw [wrap32_eq_of_bounds (by omega) h1]
  rw [show (20 : Int) * len = 4 * (5 * len) by ring]
  exact Int.mul_tdiv_cancel_left _ (by norm_num)

/-! ## A lemma about the image classification of main -/

theorem image_getD (secs : List lfp_section) (i : Nat)
    (h : i + 2 < secs.length) :
    ((secs.drop 2).map lfp_section.data).getD i [] =
      (secs.getD (i + 2) default).data := by
  rw [List.getD_eq_getD_get?, List.getD_eq_getD_get?, List.get?_map,
    List.get?_drop]
  rw [show 2 + i = i + 2 by omega]
  rw [List.get?_eq_get (by omega)]
  simp

/-! ## Concrete containers used as witnesses and counterexamples -/

/-- A 17-byte file: the 8-byte signature, 8 bytes of primary-header
filler, and one zero byte of padding.  The magic check accepts it
(17 > 8) and main enters the record loop at state (16, 1). -/
def bufPad17 : List Nat := lfpMagic ++ List.replicate 8 0 ++ [0]

/-- A 12-byte file: the 8-byte signature and 4 non-zero bytes.  It
passes the magic check (12 > 8), yet the 16-byte primary-header skip
overruns it. -/
def buf12 : List Nat := lfpMagic ++ [1, 2, 3, 4]

/-- One 97-byte record region: type "META", zero filler, declared
payload length 0, a 45-byte sha1 of ASCII 65, the 35-byte blank region,
and one trailing non-zero byte. -/
def bufOneRec : List Nat :=
  [77, 69, 84, 65] ++ List.replicate 8 0 ++ [0, 0, 0, 0] ++
    List.replicate 45 65 ++ List.replicate 35 0 ++ [74]

/-- A 96-byte record block with first type byte t and declared payload
length 0. -/
def recBlock (t : Nat) : List Nat :=
  [t, 69, 84, 65] ++ List.replicate 8 0 ++ [0, 0, 0, 0] ++
    List.replicate 45 65 ++ List.replicate 35 0

/-- A well-formed 305-byte container: signature, primary-header filler,
three records with empty payloads, and a trailing non-zero byte. -/
def buf305 : List Nat :=
  lfpMagic ++ List.replicate 8 0 ++ recBlock 77 ++ recBlock 78 ++
    recBlock 79 ++ [74]

/-- The record parse_section extracts from bufOneRec. -/
def secOneRec : lfp_section :=
  { type := [77, 69, 84, 65]
    len := 0
    sha1 := List.replicate 45 65
    data := [] }

/-- Four bytes that decode (little-endian) to the IEEE-754 single 2^127,
whose %f rendering is 39 digits, a dot and six zeros — 46 characters,
far beyond the 19 bytes snprintf(val, 20, ..) can deliver. -/
def hugeFloatPayload : List Nat := [0, 0, 0, 127]

/-- A 12-byte depth payload holding three copies of the 2^127 sample. -/
def hugePayload12 : List Nat :=
  [0, 0, 0, 127, 0, 0, 0, 127, 0, 0, 0, 127]

/-- 97 zero bytes: the skip loop swallows the whole region and the
parser sees end-of-stream. -/
def allZero97 : List Nat := List.replicate 97 0

/-- A 97-byte region whose header declares a 4294967295-byte payload:
only 1 byte remains after the header, so the declaration is oversized. -/
def oversized97 : List Nat :=
  [79] ++ List.replicate 11 0 ++ [255, 255, 255, 255] ++
    List.replicate 81 7

/-! ## C1 -/

/-- C1: the claim says the Record Parser reads only bytes inside the
bounds described by the buffer length and the length fields, and in
particular that the zero-padding skip never reads at or past the end of
the remaining region.  The code violates this: on the 17-byte file
bufPad17, whose padding runs to the end of the buffer, the driver
reaches parse_section at state (16, 1) and the skip condition
`*ptr == '\0' && len` dereferences ptr before testing len, so the loop
reads offset 17 — one byte past the end of the 17-byte buffer. -/
theorem c1_skip_reads_past_end :
    (16, (1 : Int)) ∈ lfpsplitter_mainStates bufPad17 ∧
    17 ∈ skipZerosReads bufPad17 16 1 ∧
    bufPad17.length = 17 := by decide

/-! ## C2 -/

/-- C2: parse_section produces a record exactly when, after the zero
skip, strictly more than the 96-byte header remains and the declared
big-endian payload length does not exceed the bytes remaining after the
header; otherwise it fails and no payload is produced. -/
theorem c2_record_production_conditions (buf : List Nat) (ptr len : Nat) :
    (parse_section buf ptr len).1.isSome = true ↔
      (HEADER_SIZE < (skipZeros buf ptr len).2 ∧
        beU32At buf ((skipZeros buf ptr len).1 + MAGIC_LENGTH) ≤
          (skipZeros buf ptr len).2 - HEADER_SIZE) := by
  simp only [parse_section]
  split
  · rename_i hc
    simp
    omega
  · split
    · rename_i hc1 hc2
      simp
      omega
    · rename_i hc1 hc2
      simp
      omega

/-- Witness for C2 at the concrete one-record container bufOneRec. -/
theorem c2_record_production_conditions_witness :
    (parse_section bufOneRec 0 97).1.isSome = true ↔
      (HEADER_SIZE < (skipZeros bufOneRec 0 97).2 ∧
        beU32At bufOneRec ((skipZeros bufOneRec 0 97).1 + MAGIC_LENGTH) ≤
          (skipZeros bufOneRec 0 97).2 - HEADER_SIZE) :=
  c2_record_production_conditions bufOneRec 0 97

/-! ## C3 -/

/-- C3: parse_section either returns a record whose payload is exactly
the declared number of bytes copied out of the container, or no record
at all; on every failing call the (cursor, remaining-length) pair of
the caller is left unchanged. -/
theorem c3_all_or_nothing (buf : List Nat) (ptr len : Nat)
    (s : lfp_section) (p' l' : Nat) (h : ptr + len ≤ buf.length) :
    ((parse_section buf ptr len).1 = none →
      parse_section buf ptr len = (none, ptr, len)) ∧
    (parse_section buf ptr len = (some s, p', l') →
      s.data.length = s.len ∧
      s.data =
        (buf.drop ((skipZeros buf ptr len).1 + HEADER_SIZE)).take s.len) := by
  refine ⟨fun hn => parse_section_none_eq hn, fun hps => ?_⟩
  obtain ⟨h1, h2, h3, h4, _, _⟩ := parse_section_some_eq hps
  refine ⟨?_, h4⟩
  rw [h4, List.length_take, List.length_drop]
  have hsum := skipZeros_sum buf len ptr
  have hle := skipZeros_le buf len ptr
  omega

/-- Witness for C3 at the concrete one-record container bufOneRec. -/
theorem c3_all_or_nothing_witness :
    ((parse_section bufOneRec 0 97).1 = none →
      parse_section bufOneRec 0 97 = (none, 0, 97)) ∧
    (parse_section bufOneRec 0 97 = (some secOneRec, 96, 1) →
      secOneRec.data.length = secOneRec.len ∧
      secOneRec.data =
        (bufOneRec.drop ((skipZeros bufOneRec 0 97).1 + HEADER_SIZE)).take
          secOneRec.len) :=
  c3_all_or_nothing bufOneRec 0 97 secOneRec 96 1 (by decide)

/-! ## C4 -/

/-- C4: the Magic Validator accepts exactly the buffers of length
strictly greater than 8 whose first 8 bytes are the fixed signature,
and rejects every other buffer. -/
theorem c4_magic_validator_iff (lfp : List Nat) (len : Nat) :
    lfp_file_check lfp len = true ↔ (8 < len ∧ lfp.take 8 = lfpMagic) := by
  simp [lfp_file_check]

/-- Witness for C4 at the concrete container bufPad17. -/
theorem c4_magic_validator_iff_witness :
    lfp_file_check bufPad17 17 = true ↔
      (8 < 17 ∧ bufPad17.take 8 = lfpMagic) :=
  c4_magic_validator_iff bufPad17 17

/-! ## C5 -/

/-- C5 counterexample: a 12-byte file that passes the magic check
(12 > 8).  The primary-header skip `len -= MAGIC_LENGTH +
sizeof(uint32_t)` subtracts 16 before any loop guard, driving the int
remaining-length counter to -4: the cursor has consumed 16 bytes of a
12-byte buffer, so the consumed total exceeds the buffer length and
the counter is negative, contradicting the claim.  (The record loop
guard `len > 0` then keeps the parser from running.) -/
theorem c5_negative_remaining_counterexample :
    lfp_file_check buf12 buf12.length = true ∧
    buf12.length = 12 ∧
    (16, (-4 : Int)) ∈ lfpsplitter_mainStates buf12 ∧
    ((-4 : Int) < 0) ∧ buf12.length < 16 := by decide

/-- C5 amended: for every input buffer of length at least 16 — every
buffer on which the primary-header skip leaves a non-negative
remainder — the cursor offset plus the remaining length equals the
buffer length at every state the record loop reaches, so the total
number of consumed bytes never exceeds the buffer length and the
remaining-length counter never becomes negative. -/
theorem c5_consumed_within_bounds (buf : List Nat) (p : Nat) (l : Int)
    (h16 : 16 ≤ buf.length) (hmem : (p, l) ∈ lfpsplitter_mainStates buf) :
    (p : Int) + l = buf.length ∧ 0 ≤ l ∧ (p : Int) ≤ buf.length := by
  have h := mainStatesAux_inv buf buf.length 16 ((buf.length : Int) - 16)
    (by push_cast; omega) (by omega) p l hmem
  exact ⟨h.1, h.2, by omega⟩

/-- Witness for C5 amended at the three-record container buf305. -/
theorem c5_consumed_within_bounds_witness :
    ((16 : Nat) : Int) + 289 = buf305.length ∧ (0 : Int) ≤ 289 ∧
      ((16 : Nat) : Int) ≤ buf305.length :=
  c5_consumed_within_bounds buf305 16 289 (by decide) (by decide)

/-! ## C6 -/

/-- C6 counterexample: the claim says every produced line is the
decimal rendering of the sample followed by a newline.  For the sample
2^127 the rendering plus newline is 47 bytes, snprintf(val, 20, ..)
truncates it to 19, and the emitted chunk contains no newline at all:
the output differs from rendering-plus-newline. -/
theorem c6_line_newline_counterexample :
    depth_nsamples 4 = 1 ∧
    depth_out hugeFloatPayload 4 ≠
      fmtFloatBits (sampleBits hugeFloatPayload 0) ++ ['\n'] ∧
    '\n' ∉ depth_out hugeFloatPayload 4 := by decide

/-- C6 amended: the decoder emits exactly floor(len/4) chunks, one per
4-byte sample in sample order — each the decimal rendering of the
sample followed by a newline, truncated to its first 19 bytes — with
any trailing 1-3 payload bytes ignored, and *datalen is the total
length of the emitted chunks. -/
theorem c6_decoder_structure (data : List Nat) (n i : Nat) :
    depth_string data (n : Int) =
      ((depthLines data (n : Int)).flatten,
        ((depthLines data (n : Int)).map List.length).sum) ∧
    (depthLines data (n : Int)).length = n / 4 ∧
    (i < n / 4 →
      (depthLines data (n : Int)).getD i [] =
        ((fmtFloatBits (sampleBits data i)) ++ ['\n']).take 19) := by
  refine ⟨?_, ?_, fun hi => ?_⟩
  · unfold depth_string
    rw [depth_out_eq, List.length_flatten]
  · simp [depthLines, nsamples_cast]
  · unfold depthLines
    rw [List.getD_eq_getD_get?, List.get?_map,
      List.get?_range (show i < depth_nsamples ((n : Nat) : Int) by
        rw [nsamples_cast]; exact hi)]
    simp [depthLine]

/-- Witness for C6 amended at a 5-byte payload: one sample, one ignored
trailing byte. -/
theorem c6_decoder_structure_witness :
    (depthLines [0, 0, 128, 63, 9] ((5 : Nat) : Int)).length = 5 / 4 ∧
    (depthLines [0, 0, 128, 63, 9] ((5 : Nat) : Int)).getD 0 [] =
      ((fmtFloatBits (sampleBits [0, 0, 128, 63, 9] 0)) ++ ['\n']).take 19 :=
  ⟨(c6_decoder_structure [0, 0, 128, 63, 9] 5 0).2.1,
    (c6_decoder_structure [0, 0, 128, 63, 9] 5 0).2.2 (by decide)⟩

/-! ## C7 -/

/-- C7: classification is positional — record 0 is the metadata output,
record 1 is passed through the depth decoder, the record at index i + 2
is image number i — and with fewer than 3 records the run is reported
as "no images found" while main still exits with code 0. -/
theorem c7_positional_classification (buf : List Nat) (i : Nat) :
    ((lfpsplitter_records buf).length < 3 →
      lfpsplitter_run buf = RunResult.noImages) ∧
    (lfp_file_check buf buf.length = true → (lfpsplitter_main buf).1 = 0) ∧
    (2 < (lfpsplitter_records buf).length →
      lfpsplitter_run buf =
        RunResult.extracted ((lfpsplitter_records buf).getD 0 default).data
          (depth_out ((lfpsplitter_records buf).getD 1 default).data
            (intOfUInt32 ((lfpsplitter_records buf).getD 1 default).len))
          (((lfpsplitter_records buf).drop 2).map lfp_section.data)) ∧
    (i + 2 < (lfpsplitter_records buf).length →
      (((lfpsplitter_records buf).drop 2).map lfp_section.data).getD i [] =
        ((lfpsplitter_records buf).getD (i + 2) default).data) := by
  refine ⟨fun h => ?_, fun h => ?_, fun h => ?_, fun h => image_getD _ i h⟩
  · simp only [lfpsplitter_run]
    rw [if_neg (by omega)]
  · simp only [lfpsplitter_main]
    rw [if_pos h]
  · simp only [lfpsplitter_run]
    rw [if_pos h]

/-- Witness for C7 at the three-record container buf305. -/
theorem c7_positional_classification_witness :
    lfpsplitter_run buf305 =
      RunResult.extracted ((lfpsplitter_records buf305).getD 0 default).data
        (depth_out ((lfpsplitter_records buf305).getD 1 default).data
          (intOfUInt32 ((lfpsplitter_records buf305).getD 1 default).len))
        (((lfpsplitter_records buf305).drop 2).map lfp_section.data) ∧
    (lfpsplitter_main buf305).1 = 0 ∧
    (((lfpsplitter_records buf305).drop 2).map lfp_section.data).getD 0 [] =
      ((lfpsplitter_records buf305).getD 2 default).data :=
  ⟨(c7_positional_classification buf305 0).2.2.1 (by decide),
    (c7_positional_classification buf305 0).2.1 (by decide),
    (c7_positional_classification buf305 0).2.2.2 (by decide)⟩

/-! ## Syntactic lemmas: digits, parsing, character classes -/

theorem digitChar_toNat {d : Nat} (h : d < 10) : (digitChar d).toNat = 48 + d := by
  interval_cases d <;> decide

theorem mem_natDigitsAux {c : Char} :
    ∀ fuel n, c ∈ natDigitsAux fuel n → ∃ d, d < 10 ∧ c = digitChar d := by
  intro fuel
  induction fuel with
  | zero => intro n h; simp [natDigitsAux] at h
  | succ f ih =>
    intro n h
    simp only [natDigitsAux] at h
    split at h
    · rename_i hn
      simp only [List.mem_singleton] at h
      exact ⟨n, hn, h⟩
    · rcases List.mem_append.mp h with h1 | h2
      · exact ih _ h1
      · simp only [List.mem_singleton] at h2
        exact ⟨n % 10, Nat.mod_lt _ (by norm_num), h2⟩

theorem mem_natDigits {c : Char} {n : Nat} (h : c ∈ natDigits n) :
    ∃ d, d < 10 ∧ c = digitChar d := mem_natDigitsAux _ _ h

theorem mem_pad6 {c : Char} {n : Nat} (h : c ∈ pad6 n) :
    ∃ d, d < 10 ∧ c = digitChar d := by
  unfold pad6 at h
  rcases List.mem_append.mp h with h1 | h2
  · rw [List.eq_of_mem_replicate h1]
    exact ⟨0, by norm_num, by decide⟩
  · exact mem_natDigits h2

theorem digitsToNat_append (l1 l2 : List Char) (acc : Nat) :
    digitsToNat (l1 ++ l2) acc = digitsToNat l2 (digitsToNat l1 acc) := by
  induction l1 generalizing acc with
  | nil => rfl
  | cons c cs ih => simp [digitsToNat, ih]

theorem digitsToNat_natDigitsAux :
    ∀ fuel n acc, n < 10 ^ fuel →
      digitsToNat (natDigitsAux fuel n) acc =
        acc * 10 ^ (natDigitsAux fuel n).length + n := by
  intro fuel
  induction fuel with
  | zero =>
    intro n acc h
    simp only [pow_zero, Nat.lt_one_iff] at h
    simp [natDigitsAux, digitsToNat, h]
  | succ f ih =>
    intro n acc h
    simp only [natDigitsAux]
    split
    · rename_i hn
      simp only [digitsToNat, digitChar_toNat hn, List.length_singleton, pow_one]
      omega
    · rename_i hn
      have hlt : n / 10 < 10 ^ f := by
        rw [Nat.div_lt_iff_lt_mul (by norm_num)]
        calc n < 10 ^ (f + 1) := h
          _ = 10 ^ f * 10 := by rw [pow_succ]
      rw [digitsToNat_append]
      simp only [digitsToNat, digitChar_toNat (Nat.mod_lt n (by norm_num) : n % 10 < 10)]
      rw [ih (n / 10) acc hlt]
      rw [List.length_append, List.length_singleton, pow_succ]
      have hY : acc * (10 ^ (natDigitsAux f (n / 10)).length * 10) =
          acc * 10 ^ (natDigitsAux f (n / 10)).length * 10 := by ring
      rw [hY]
      omega

theorem digitsToNat_natDigits (n : Nat) : digitsToNat (natDigits n) 0 = n := by
  unfold natDigits
  have hfuel : n < 10 ^ (n + 1) := by
    have h1 : n < 10 ^ n := Nat.lt_pow_self (by norm_num) n
    have h2 : 10 ^ n ≤ 10 ^ (n + 1) := Nat.pow_le_pow_right (by norm_num) (by omega)
    omega
  rw [digitsToNat_natDigitsAux (n + 1) n 0 hfuel]
  simp

theorem digitsToNat_zeros (z : Nat) : digitsToNat (List.replicate z '0') 0 = 0 := by
  induction z with
  | zero => rfl
  | succ k ih =>
    show digitsToNat ('0' :: List.replicate k '0') 0 = 0
    simp only [digitsToNat]
    convert ih using 2

theorem digitsToNat_pad6 (r : Nat) : digitsToNat (pad6 r) 0 = r := by
  unfold pad6
  rw [digitsToNat_append, digitsToNat_zeros, digitsToNat_natDigits]

theorem takeWhile_append_all {p : Char → Bool} :
    ∀ (l1 l2 : List Char), (∀ c ∈ l1, p c = true) →
      (l1 ++ l2).takeWhile p = l1 ++ l2.takeWhile p := by
  intro l1
  induction l1 with
  | nil => intro l2 _; rfl
  | cons c cs ih =>
    intro l2 h
    simp only [List.cons_append, List.takeWhile_cons]
    rw [h c (by simp)]
    simp only [if_true]
    rw [ih l2 (fun x hx => h x (by simp [hx]))]

theorem dropWhile_append_all {p : Char → Bool} :
    ∀ (l1 l2 : List Char), (∀ c ∈ l1, p c = true) →
      (l1 ++ l2).dropWhile p = l2.dropWhile p := by
  intro l1
  induction l1 with
  | nil => intro l2 _; rfl
  | cons c cs ih =>
    intro l2 h
    simp only [List.cons_append, List.dropWhile_cons]
    rw [h c (by simp)]
    simp only [if_true]
    exact ih l2 (fun x hx => h x (by simp [hx]))

theorem digit_bne_dot {d : Nat} (h : d < 10) : (digitChar d != '.') = true := by
  interval_cases d <;> decide

theorem digit_bne_newline {d : Nat} (h : d < 10) : (digitChar d != '\n') = true := by
  interval_cases d <;> decide

theorem parseFixed_format (q r : Nat) :
    parseFixed (natDigits q ++ '.' :: pad6 r) = q * 1000000 + r := by
  unfold parseFixed
  have hdig : ∀ c ∈ natDigits q, (c != '.') = true := by
    intro c hc
    obtain ⟨d, hd, rfl⟩ := mem_natDigits hc
    exact digit_bne_dot hd
  rw [takeWhile_append_all _ _ hdig, dropWhile_append_all _ _ hdig]
  simp only [List.takeWhile_cons, List.dropWhile_cons]
  norm_num
  rw [digitsToNat_natDigits, digitsToNat_pad6]

/-! ## Arithmetic lemmas: round-half-even and the fixed-point value -/

theorem roundHalfEven_close (q d : Nat) (hd : 0 < d) :
    |((roundHalfEven q d : Nat) : ℚ) - (q : ℚ) / d| ≤ 1 / 2 := by
  have hdq : (0:ℚ) < (d:ℚ) := by exact_mod_cast hd
  have hsplit : (q:ℚ) = (d:ℚ) * ((q / d : Nat) : ℚ) + ((q % d : Nat) : ℚ) := by
    exact_mod_cast (Nat.div_add_mod q d).symm
  have hval : (q:ℚ) / d = ((q / d : Nat) : ℚ) + ((q % d : Nat) : ℚ) / d := by
    rw [hsplit]
    field_simp
    ring
  have hrlt : ((q % d : Nat) : ℚ) < d := by exact_mod_cast Nat.mod_lt q hd
  have hrpos : (0:ℚ) ≤ ((q % d : Nat) : ℚ) := by positivity
  simp only [roundHalfEven]
  split
  · rename_i hc
    rw [hval, show ((q / d : Nat) : ℚ) -
        (((q / d : Nat) : ℚ) + ((q % d : Nat) : ℚ) / d) =
        -(((q % d : Nat) : ℚ) / d) by ring, abs_neg,
      abs_of_nonneg (by positivity)]
    rw [div_le_div_iff hdq (by norm_num : (0:ℚ) < 2)]
    exact_mod_cast (by omega : (q % d) * 2 ≤ 1 * d)
  · split
    · rename_i hc1 hc2
      rw [hval]
      push_cast
      rw [show ((q / d : Nat) : ℚ) + 1 -
          (((q / d : Nat) : ℚ) + ((q % d : Nat) : ℚ) / d) =
          1 - ((q % d : Nat) : ℚ) / d by ring]
      rw [abs_of_nonneg (by rw [sub_nonneg, div_le_one hdq]; linarith)]
      rw [sub_le_iff_le_add]
      rw [div_add_div _ _ (by norm_num : (2:ℚ) ≠ 0) (ne_of_gt hdq)]
      rw [le_div_iff (by positivity)]
      have : d ≤ 2 * (q % d) := by omega
      have hcast : (d:ℚ) ≤ 2 * ((q % d : Nat) : ℚ) := by exact_mod_cast this
      nlinarith
    · rename_i hc1 hc2
      have htie : 2 * (q % d) = d := by omega
      have htieq : 2 * ((q % d : Nat) : ℚ) = d := by exact_mod_cast htie
      split
      · rw [hval, show ((q / d : Nat) : ℚ) -
            (((q / d : Nat) : ℚ) + ((q % d : Nat) : ℚ) / d) =
            -(((q % d : Nat) : ℚ) / d) by ring, abs_neg,
          abs_of_nonneg (by positivity)]
        rw [div_le_div_iff hdq (by norm_num : (0:ℚ) < 2)]
        nlinarith
      · rw [hval]
        push_cast
        rw [show ((q / d : Nat) : ℚ) + 1 -
            (((q / d : Nat) : ℚ) + ((q % d : Nat) : ℚ) / d) =
            1 - ((q % d : Nat) : ℚ) / d by ring]
        rw [abs_of_nonneg (by rw [sub_nonneg, div_le_one hdq]; linarith)]
        rw [sub_le_iff_le_add]
        rw [div_add_div _ _ (by norm_num : (2:ℚ) ≠ 0) (ne_of_gt hdq)]
        rw [le_div_iff (by positivity)]
        nlinarith

theorem roundHalfEven_eq_of_close (q d A : Nat) (hd : 0 < d)
    (h : |(q : ℚ) / d - A| < 1 / 2) : roundHalfEven q d = A := by
  have hdq : (0:ℚ) < (d:ℚ) := by exact_mod_cast hd
  rw [abs_sub_lt_iff] at h
  obtain ⟨h1, h2⟩ := h
  have hi1 : 2 * q < 2 * A * d + d := by
    have hq : (q:ℚ) < ((A:ℚ) + 1/2) * d := by
      rw [← div_lt_iff hdq]
      linarith
    have : (2 * q : ℚ) < 2 * A * d + d := by nlinarith
    exact_mod_cast this
  have hi2 : 2 * A * d < 2 * q + d := by
    have hq : ((A:ℚ) - 1/2) * d < q := by
      rw [← lt_div_iff hdq]
      linarith
    have : (2 * A * d : ℚ) < 2 * q + d := by nlinarith
    exact_mod_cast this
  have hqd := Nat.div_add_mod q d
  have hr := Nat.mod_lt q hd
  have key : ∀ x y : Nat, x * (2 * d) < y * (2 * d) → x < y := by
    intro x y hxy
    exact lt_of_mul_lt_mul_right hxy (by omega)
  simp only [roundHalfEven]
  split
  · rename_i hc
    have up : q / d < A + 1 := by
      refine key _ _ ?_
      have e1 : q / d * (2 * d) = 2 * (d * (q / d)) := by ring
      have e2 : (A + 1) * (2 * d) = 2 * A * d + 2 * d := by ring
      rw [e1, e2]
      linarith [hi1, hqd, hc, Nat.zero_le (q % d), Nat.zero_le d, hd]
    have dn : A < q / d + 1 := by
      refine key _ _ ?_
      have e1 : A * (2 * d) = 2 * A * d := by ring
      have e2 : (q / d + 1) * (2 * d) = 2 * (d * (q / d)) + 2 * d := by ring
      rw [e1, e2]
      linarith [hi2, hqd, hc, Nat.zero_le (q % d), Nat.zero_le d, hd]
    omega
  · split
    · rename_i hc1 hc2
      have up : q / d < A := by
        refine key _ _ ?_
        have e1 : q / d * (2 * d) = 2 * (d * (q / d)) := by ring
        have e2 : A * (2 * d) = 2 * A * d := by ring
        rw [e1, e2]
        linarith [hi1, hqd, hc2, Nat.zero_le (q % d), Nat.zero_le d, hd]
      have dn : A < q / d + 2 := by
        refine key _ _ ?_
        have e1 : A * (2 * d) = 2 * A * d := by ring
        have e2 : (q / d + 2) * (2 * d) = 2 * (d * (q / d)) + 4 * d := by ring
        rw [e1, e2]
        linarith [hi2, hqd, hr, Nat.zero_le (q % d), Nat.zero_le d, hd]
      omega
    · rename_i hc1 hc2
      exfalso
      have htie : 2 * (q % d) = d := by omega
      have up : q / d < A := by
        refine key _ _ ?_
        have e1 : q / d * (2 * d) = 2 * (d * (q / d)) := by ring
        have e2 : A * (2 * d) = 2 * A * d := by ring
        rw [e1, e2]
        linarith [hi1, hqd, htie, Nat.zero_le (q % d), Nat.zero_le d, hd]
      have dn : A < q / d + 1 := by
        refine key _ _ ?_
        have e1 : A * (2 * d) = 2 * A * d := by ring
        have e2 : (q / d + 1) * (2 * d) = 2 * (d * (q / d)) + 2 * d := by ring
        rw [e1, e2]
        linarith [hi2, hqd, htie, Nat.zero_le (q % d), Nat.zero_le d, hd]
      omega

theorem roundHalfEven_exact (c d : Nat) (hd : 0 < d) :
    roundHalfEven (d * c) d = c := by
  simp only [roundHalfEven]
  rw [Nat.mul_div_cancel_left c (by omega), Nat.mul_mod_right]
  simp [hd]

theorem floatQ_den (A : Nat) (E : Int) (hE : E < 0) :
    ((A * 1000000 : Nat) : ℚ) / ((2 ^ (-E).toNat : Nat) : ℚ) =
      floatQ A E * 1000000 := by
  unfold floatQ
  have h2 : ((2 ^ (-E).toNat : Nat) : ℚ) = (2:ℚ) ^ (-E) := by
    push_cast
    rw [← zpow_natCast (2:ℚ) (-E).toNat, Int.toNat_of_nonneg (by omega)]
  rw [h2, div_eq_iff (by positivity)]
  have hz : (2:ℚ) ^ E * 2 ^ (-E) = 1 := by
    rw [← zpow_add₀ (by norm_num : (2:ℚ) ≠ 0)]
    simp
  push_cast
  linear_combination (-((A:ℚ) * 1000000)) * hz

theorem floatN_exact (A : Nat) (E : Int) (hE : 0 ≤ E) :
    ((floatN A E : Nat) : ℚ) = floatQ A E * 1000000 := by
  unfold floatN floatQ
  rw [if_pos hE]
  push_cast
  rw [← zpow_natCast (2:ℚ) E.toNat, Int.toNat_of_nonneg hE]

theorem floatN_close (A : Nat) (E : Int) :
    |((floatN A E : Nat) : ℚ) - floatQ A E * 1000000| ≤ 1 / 2 := by
  by_cases hE : 0 ≤ E
  · rw [floatN_exact A E hE, sub_self, abs_zero]
    norm_num
  · unfold floatN
    rw [if_neg hE]
    have h := roundHalfEven_close (A * 1000000) (2 ^ (-E).toNat) (by positivity)
    rwa [floatQ_den A E (by omega)] at h

theorem floatN_exact_dvd (A : Nat) (E : Int) (hE : E < 0)
    (hdvd : 2 ^ (-E).toNat ∣ A * 1000000) :
    ((floatN A E : Nat) : ℚ) = floatQ A E * 1000000 := by
  unfold floatN
  rw [if_neg (by omega)]
  obtain ⟨c, hc⟩ := hdvd
  have hd : 0 < 2 ^ (-E).toNat := by positivity
  rw [hc, roundHalfEven_exact c _ hd]
  rw [← floatQ_den A E hE, hc]
  push_cast
  rw [mul_comm ((2:ℚ) ^ (-E).toNat) (c:ℚ), mul_div_assoc,
    div_self (by positivity : ((2:ℚ) ^ (-E).toNat) ≠ 0), mul_one]

/-! ## The binade search of the parse -/

theorem pow2le_iff (k : Int) (N : Nat) :
    pow2le k N = true ↔ (2:ℚ) ^ k * 1000000 ≤ (N : ℚ) := by
  unfold pow2le
  split
  · rename_i hk
    rw [decide_eq_true_eq]
    have he : (2:ℚ) ^ k * 1000000 = ((2 ^ k.toNat * 1000000 : Nat) : ℚ) := by
      push_cast
      rw [← zpow_natCast (2:ℚ) k.toNat, Int.toNat_of_nonneg hk]
    rw [he]
    exact ⟨fun h => by exact_mod_cast h, fun h => by exact_mod_cast h⟩
  · rename_i hk
    rw [decide_eq_true_eq]
    have hF : ((2 ^ (-k).toNat : Nat) : ℚ) = (2:ℚ) ^ (-k) := by
      push_cast
      rw [← zpow_natCast (2:ℚ), Int.toNat_of_nonneg (by omega)]
    have h2 : (0:ℚ) < 2 ^ k := by positivity
    have h2F : (0:ℚ) < 2 ^ (-k) := by positivity
    have hz1 : (2:ℚ) ^ (-k) * 2 ^ k = 1 := by
      rw [← zpow_add₀ (by norm_num : (2:ℚ) ≠ 0)]
      simp
    constructor
    · intro h
      have hq : (1000000 : ℚ) ≤ (N:ℚ) * 2 ^ (-k) := by
        rw [← hF]
        exact_mod_cast h
      have step := mul_le_mul_of_nonneg_right hq (le_of_lt h2)
      calc (2:ℚ) ^ k * 1000000 = 1000000 * 2 ^ k := by ring
        _ ≤ (N:ℚ) * 2 ^ (-k) * 2 ^ k := step
        _ = (N:ℚ) * (2 ^ (-k) * 2 ^ k) := by ring
        _ = (N:ℚ) := by rw [hz1, mul_one]
    · intro h
      have step := mul_le_mul_of_nonneg_right h (le_of_lt h2F)
      have hq : (1000000 : ℚ) ≤ (N:ℚ) * 2 ^ (-k) := by
        calc (1000000 : ℚ) = 1000000 * (2 ^ (-k) * 2 ^ k) := by rw [hz1, mul_one]
          _ = 2 ^ k * 1000000 * 2 ^ (-k) := by ring
          _ ≤ (N:ℚ) * 2 ^ (-k) := step
      rw [← hF] at hq
      exact_mod_cast hq

theorem ilog2Frac_spec (N : Nat) (hN : 1 ≤ N) :
    (2:ℚ) ^ (ilog2Frac N) * 1000000 ≤ (N : ℚ) ∧
      (N : ℚ) < 2 ^ (ilog2Frac N + 1) * 1000000 := by
  have hcast : ∀ j : Nat, ((2 ^ j : Nat) : ℚ) = (2:ℚ) ^ (j : Int) := by
    intro j
    push_cast
    rw [zpow_natCast]
  have hlog1 : (2:ℚ) ^ ((Nat.log2 N : Nat) : Int) ≤ N := by
    rw [← hcast]
    exact_mod_cast Nat.log2_self_le (by omega)
  have hlog2 : (N : ℚ) < (2:ℚ) ^ (((Nat.log2 N + 1 : Nat)) : Int) := by
    rw [← hcast]
    exact_mod_cast Nat.lt_log2_self
  have h20 : (1000000:ℚ) ≤ 2 ^ (20:Int) := by
    rw [show ((20:Int)) = ((20:Nat) : Int) from rfl, zpow_natCast]
    norm_num
  have h19 : (2:ℚ) ^ (19:Int) ≤ 1000000 := by
    rw [show ((19:Int)) = ((19:Nat) : Int) from rfl, zpow_natCast]
    norm_num
  have hk0 : (2:ℚ) ^ ((Nat.log2 N : Int) - 20) * 1000000 ≤ N := by
    have hp : (0:ℚ) < 2 ^ ((Nat.log2 N : Int) - 20) := by positivity
    calc (2:ℚ) ^ ((Nat.log2 N : Int) - 20) * 1000000
        ≤ (2:ℚ) ^ ((Nat.log2 N : Int) - 20) * 2 ^ (20:Int) := by nlinarith
      _ = (2:ℚ) ^ ((Nat.log2 N : Int)) := by
          rw [← zpow_add₀ (by norm_num : (2:ℚ) ≠ 0)]
          norm_num
      _ ≤ N := hlog1
  have hk2 : (N:ℚ) < 2 ^ ((Nat.log2 N : Int) - 18) * 1000000 := by
    have hp : (0:ℚ) < 2 ^ ((Nat.log2 N : Int) - 18) := by positivity
    calc (N:ℚ) < (2:ℚ) ^ (((Nat.log2 N + 1 : Nat)) : Int) := hlog2
      _ = (2:ℚ) ^ ((Nat.log2 N : Int) - 18) * 2 ^ (19:Int) := by
          rw [← zpow_add₀ (by norm_num : (2:ℚ) ≠ 0)]
          congr 1
          push_cast
          ring
      _ ≤ 2 ^ ((Nat.log2 N : Int) - 18) * 1000000 := by nlinarith
  unfold ilog2Frac
  split
  · rename_i htest
    refine ⟨(pow2le_iff _ _).mp htest, ?_⟩
    rw [show (Nat.log2 N : Int) - 19 + 1 = (Nat.log2 N : Int) - 18 from by ring]
    exact hk2
  · rename_i htest
    refine ⟨hk0, ?_⟩
    rw [show (Nat.log2 N : Int) - 20 + 1 = (Nat.log2 N : Int) - 19 from by ring]
    by_contra hcon
    push_neg at hcon
    exact htest ((pow2le_iff _ _).mpr hcon)

theorem zpow_binade_unique {t : ℚ} {a b : Int} (h1 : 2 ^ a ≤ t)
    (h2 : t < 2 ^ (a + 1)) (h3 : 2 ^ b ≤ t) (h4 : t < 2 ^ (b + 1)) :
    a = b := by
  by_contra hne
  rcases lt_or_gt_of_ne hne with h | h
  · have hstep : (2:ℚ) ^ (a + 1) ≤ 2 ^ b := zpow_le_zpow_right₀ (by norm_num) (by omega)
    linarith
  · have hstep : (2:ℚ) ^ (b + 1) ≤ 2 ^ a := zpow_le_zpow_right₀ (by norm_num) (by omega)
    linarith

theorem nearestFloatMag_snd (N : Nat) :
    (nearestFloatMag N).2 = ilog2Frac N - 23 := rfl

theorem nearestFloatMag_fst (N : Nat) :
    (nearestFloatMag N).1 =
      if 0 ≤ ilog2Frac N - 23 then
        roundHalfEven N (1000000 * 2 ^ (ilog2Frac N - 23).toNat)
      else roundHalfEven (N * 2 ^ (-(ilog2Frac N - 23)).toNat) 1000000 := rfl

/-- Half-ulp bound on the scaled significand of the parse: the rounded
integer is within one half of N/10^6 / 2^E, and lies in [2^23, 2^24]. -/
theorem nearestFloatMag_scaled (N : Nat) (hN : 1 ≤ N) :
    |(((nearestFloatMag N).1 : Nat) : ℚ) -
        (N : ℚ) / 1000000 / 2 ^ (ilog2Frac N - 23)| ≤ 1 / 2 ∧
      2 ^ 23 ≤ (nearestFloatMag N).1 ∧ (nearestFloatMag N).1 ≤ 2 ^ 24 := by
  obtain ⟨hlo, hhi⟩ := ilog2Frac_spec N hN
  have hmil : (0:ℚ) < 1000000 := by norm_num
  have hEpos : (0:ℚ) < 2 ^ (ilog2Frac N - 23) := by positivity
  have hslo : (2:ℚ) ^ (23:Int) ≤ (N : ℚ) / 1000000 / 2 ^ (ilog2Frac N - 23) := by
    rw [div_div, le_div_iff (by positivity)]
    calc (2:ℚ) ^ (23:Int) * (1000000 * 2 ^ (ilog2Frac N - 23)) =
        2 ^ (ilog2Frac N) * 1000000 := by
          rw [show (2:ℚ) ^ (23:Int) * (1000000 * 2 ^ (ilog2Frac N - 23)) =
            (2:ℚ) ^ (23:Int) * 2 ^ (ilog2Frac N - 23) * 1000000 from by ring,
            ← zpow_add₀ (by norm_num : (2:ℚ) ≠ 0)]
          congr 2
          ring
      _ ≤ N := hlo
  have hshi : (N : ℚ) / 1000000 / 2 ^ (ilog2Frac N - 23) < (2:ℚ) ^ (24:Int) := by
    rw [div_div, div_lt_iff (by positivity)]
    calc (N : ℚ) < 2 ^ (ilog2Frac N + 1) * 1000000 := hhi
      _ = (2:ℚ) ^ (24:Int) * (1000000 * 2 ^ (ilog2Frac N - 23)) := by
          rw [show (2:ℚ) ^ (24:Int) * (1000000 * 2 ^ (ilog2Frac N - 23)) =
            (2:ℚ) ^ (24:Int) * 2 ^ (ilog2Frac N - 23) * 1000000 from by ring,
            ← zpow_add₀ (by norm_num : (2:ℚ) ≠ 0)]
          congr 2
          ring
  have hA : |(((nearestFloatMag N).1 : Nat) : ℚ) -
      (N : ℚ) / 1000000 / 2 ^ (ilog2Frac N - 23)| ≤ 1 / 2 := by
    rw [nearestFloatMag_fst]
    split
    · rename_i hEnn
      have h := roundHalfEven_close N (1000000 * 2 ^ (ilog2Frac N - 23).toNat)
        (by positivity)
      have hden : ((1000000 * 2 ^ (ilog2Frac N - 23).toNat : Nat) : ℚ) =
          1000000 * 2 ^ (ilog2Frac N - 23) := by
        push_cast
        rw [← zpow_natCast (2:ℚ), Int.toNat_of_nonneg hEnn]
      rw [hden, ← div_div] at h
      exact h
    · rename_i hEnn
      have h := roundHalfEven_close (N * 2 ^ (-(ilog2Frac N - 23)).toNat) 1000000
        (by norm_num)
      have hnum : ((N * 2 ^ (-(ilog2Frac N - 23)).toNat : Nat) : ℚ) =
          (N:ℚ) * 2 ^ (-(ilog2Frac N - 23)) := by
        push_cast
        rw [← zpow_natCast (2:ℚ), Int.toNat_of_nonneg (by omega)]
      rw [hnum] at h
      have hval : (N:ℚ) * 2 ^ (-(ilog2Frac N - 23)) / 1000000 =
          (N : ℚ) / 1000000 / 2 ^ (ilog2Frac N - 23) := by
        rw [zpow_neg]
        ring
      push_cast at h
      rw [hval] at h
      exact h
  refine ⟨hA, ?_, ?_⟩
  · have h1 := (abs_le.mp hA).1
    have h23 : ((2 ^ 23 : Nat) : ℚ) = (2:ℚ) ^ (23:Int) := by
      rw [show ((23:Int)) = ((23:Nat) : Int) from rfl, zpow_natCast]
      norm_num
    have hq : ((2 ^ 23 : Nat) : ℚ) - 1 < (((nearestFloatMag N).1 : Nat) : ℚ) := by
      rw [h23]
      nlinarith [hslo]
    have : (2 ^ 23 : Nat) - 1 < (nearestFloatMag N).1 := by exact_mod_cast
      (by push_cast; linarith : (((2 ^ 23 : Nat) - 1 : Nat) : ℚ) < (((nearestFloatMag N).1 : Nat) : ℚ))
    omega
  · have h2 := (abs_le.mp hA).2
    have h24 : ((2 ^ 24 : Nat) : ℚ) = (2:ℚ) ^ (24:Int) := by
      rw [show ((24:Int)) = ((24:Nat) : Int) from rfl, zpow_natCast]
      norm_num
    have hq : (((nearestFloatMag N).1 : Nat) : ℚ) < ((2 ^ 24 : Nat) : ℚ) + 1 := by
      rw [h24]
      nlinarith [hshi]
    have : (nearestFloatMag N).1 < (2 ^ 24 : Nat) + 1 := by exact_mod_cast hq
    omega

/-! ## Decode and encode of 32-bit patterns, and the shape of the
formatted text -/

theorem floatFrac_lt (b : Nat) : floatFrac b < 2 ^ 23 :=
  Nat.mod_lt _ (by norm_num)

theorem floatSig_lt (b : Nat) : floatSig b < 2 ^ 24 := by
  unfold floatSig
  have h := floatFrac_lt b
  split <;> omega

theorem floatExpField_lt (b : Nat) : floatExpField b < 256 := by
  unfold floatExpField
  omega

theorem floatExpE_ge (b : Nat) : -149 ≤ floatExpE b := by
  unfold floatExpE
  split <;> omega

theorem floatExpE_le (b : Nat) (hfin : floatExpField b ≠ 255) :
    floatExpE b ≤ 104 := by
  have h := floatExpField_lt b
  unfold floatExpE
  split <;> omega

theorem floatSig_normal (b : Nat) (h : floatExpField b ≠ 0) :
    2 ^ 23 ≤ floatSig b := by
  unfold floatSig
  rw [if_neg h]
  omega

theorem floatExpE_subnormal (b : Nat) (h : floatExpField b = 0) :
    floatExpE b = -149 := by
  unfold floatExpE
  rw [if_pos h]
  decide

theorem encodeMagBits_decode (A : Nat) (E : Int) (hA1 : 2 ^ 23 ≤ A)
    (hA2 : A < 2 ^ 24) (hE1 : -149 ≤ E) (hE2 : E ≤ 104) :
    floatSignBit (encodeMagBits A E) = 0 ∧
    floatExpField (encodeMagBits A E) ≠ 255 ∧
    floatSig (encodeMagBits A E) = A ∧
    floatExpE (encodeMagBits A E) = E ∧
    encodeMagBits A E < 2 ^ 31 := by
  unfold encodeMagBits
  rw [if_neg (by omega)]
  have he1 : 1 ≤ (E + 150).toNat := by omega
  have he2 : (E + 150).toNat ≤ 254 := by omega
  have hfe : floatExpField ((E + 150).toNat * 2 ^ 23 + (A - 2 ^ 23)) =
      (E + 150).toNat := by
    unfold floatExpField
    omega
  refine ⟨?_, ?_, ?_, ?_, ?_⟩
  · unfold floatSignBit
    omega
  · rw [hfe]
    omega
  · unfold floatSig
    rw [hfe, if_neg (by omega)]
    unfold floatFrac
    omega
  · unfold floatExpE
    rw [hfe, if_neg (by omega)]
    omega
  · omega

theorem encodeMagBits_decode_bump (E : Int) (hE1 : -150 ≤ E) (hE2 : E ≤ 103) :
    floatSignBit (encodeMagBits (2 ^ 24) E) = 0 ∧
    floatExpField (encodeMagBits (2 ^ 24) E) ≠ 255 ∧
    floatSig (encodeMagBits (2 ^ 24) E) = 2 ^ 23 ∧
    floatExpE (encodeMagBits (2 ^ 24) E) = E + 1 ∧
    encodeMagBits (2 ^ 24) E < 2 ^ 31 := by
  unfold encodeMagBits
  rw [if_pos rfl]
  have he1 : 1 ≤ (E + 151).toNat := by omega
  have he2 : (E + 151).toNat ≤ 254 := by omega
  have hfe : floatExpField ((E + 151).toNat * 2 ^ 23) = (E + 151).toNat := by
    unfold floatExpField
    omega
  refine ⟨?_, ?_, ?_, ?_, ?_⟩
  · unfold floatSignBit
    omega
  · rw [hfe]
    omega
  · unfold floatSig
    rw [hfe, if_neg (by omega)]
    unfold floatFrac
    omega
  · unfold floatExpE
    rw [hfe, if_neg (by omega)]
    omega
  · omega

theorem floatQ_bump (E : Int) : floatQ (2 ^ 23) (E + 1) = floatQ (2 ^ 24) E := by
  unfold floatQ
  push_cast
  rw [zpow_add₀ (by norm_num : (2:ℚ) ≠ 0)]
  norm_num
  ring

theorem fmtFloatBits_finite (b : Nat) (hfin : floatExpField b ≠ 255) :
    fmtFloatBits b =
      (if floatSignBit b = 1 then ['-'] else []) ++
        (natDigits (floatN (floatSig b) (floatExpE b) / 1000000) ++
          '.' :: pad6 (floatN (floatSig b) (floatExpE b) % 1000000)) := by
  have hfin' : ¬(b / 2 ^ 23 % 256 = 255) := hfin
  simp only [fmtFloatBits, floatN, floatSig, floatExpE, floatSignBit,
    floatExpField, floatFrac]
  rw [if_neg hfin']
  simp [List.append_assoc]

theorem fmtFloatBits_infnan (b : Nat) (hfin : floatExpField b = 255) :
    fmtFloatBits b =
      (if floatSignBit b = 1 then ['-'] else []) ++
        (if floatFrac b = 0 then ['i', 'n', 'f'] else ['n', 'a', 'n']) := by
  have hfin' : b / 2 ^ 23 % 256 = 255 := hfin
  simp only [fmtFloatBits, floatSignBit, floatExpField, floatFrac]
  rw [if_pos hfin']

theorem fmtFloatBits_neg (x : Nat) (hx : x < 2 ^ 31) :
    fmtFloatBits (2 ^ 31 + x) = '-' :: fmtFloatBits x := by
  have h1 : (2 ^ 31 + x) / 2 ^ 31 % 2 = 1 := by omega
  have h2 : (2 ^ 31 + x) / 2 ^ 23 % 256 = x / 2 ^ 23 % 256 := by omega
  have h3 : (2 ^ 31 + x) % 2 ^ 23 = x % 2 ^ 23 := by omega
  have h0 : x / 2 ^ 31 % 2 = 0 := by omega
  simp only [fmtFloatBits]
  rw [h1, h2, h3, h0]
  norm_num
  split
  · rw [apply_ite (List.cons '-')]
  · rfl

theorem natDigitsAux_ne_nil (fuel n : Nat) : natDigitsAux (fuel + 1) n ≠ [] := by
  simp only [natDigitsAux]
  split
  · simp
  · simp [List.append_eq_nil]

theorem natDigits_head_digit (n : Nat) :
    ∃ d, d < 10 ∧ (natDigits n).head? = some (digitChar d) := by
  have hne : natDigits n ≠ [] := natDigitsAux_ne_nil n n
  obtain ⟨c, l, hcl⟩ := List.exists_cons_of_ne_nil hne
  have hc : c ∈ natDigits n := by
    rw [hcl]
    simp
  obtain ⟨d, hd, rfl⟩ := mem_natDigits hc
  refine ⟨d, hd, ?_⟩
  rw [hcl]
  rfl

theorem digitChar_ne_id (d : Nat) (h : d < 10) :
    digitChar d ≠ 'i' ∧ digitChar d ≠ 'n' ∧ digitChar d ≠ '-' := by
  interval_cases d <;> exact ⟨by decide, by decide, by decide⟩

theorem mag_head_digit (q r : Nat) :
    ∃ d, d < 10 ∧
      (natDigits q ++ '.' :: pad6 r).head? = some (digitChar d) := by
  obtain ⟨d, hd, hh⟩ := natDigits_head_digit q
  refine ⟨d, hd, ?_⟩
  have hne : natDigits q ≠ [] := natDigitsAux_ne_nil q q
  rw [List.head?_append_of_ne_nil _ hne]
  exact hh

/-! ## The round trip: parsing a written line and re-formatting the
parsed float reproduces the line -/

theorem floatN_eq_of_close (A : Nat) (E : Int) (hE : E < 0) (N : Nat)
    (h : |floatQ A E * 1000000 - (N : ℚ)| < 1 / 2) : floatN A E = N := by
  unfold floatN
  rw [if_neg (by omega)]
  apply roundHalfEven_eq_of_close _ _ _ (by positivity)
  rw [floatQ_den A E hE]
  exact h

set_option maxHeartbeats 3200000 in
/-- Round trip of the magnitude text: parsing the fixed-point line
written for a finite magnitude A·2^E and re-encoding the parsed float
reproduces the text byte for byte. -/
theorem mag_round_trip (A : Nat) (E : Int) (hA : A < 2 ^ 24)
    (hEl : -149 ≤ E) (hEu : E ≤ 104) (hnorm : 2 ^ 23 ≤ A ∨ E = -149) :
    strtofMagBits (natDigits (floatN A E / 1000000) ++ '.' ::
        pad6 (floatN A E % 1000000)) < 2 ^ 31 ∧
      fmtFloatBits (strtofMagBits (natDigits (floatN A E / 1000000) ++ '.' ::
        pad6 (floatN A E % 1000000))) =
        natDigits (floatN A E / 1000000) ++ '.' :: pad6 (floatN A E % 1000000) := by
  obtain ⟨d, hd, hhead⟩ := mag_head_digit (floatN A E / 1000000) (floatN A E % 1000000)
  obtain ⟨hni, hnn, -⟩ := digitChar_ne_id d hd
  have hsm : strtofMagBits (natDigits (floatN A E / 1000000) ++ '.' ::
      pad6 (floatN A E % 1000000)) =
      if parseFixed (natDigits (floatN A E / 1000000) ++ '.' ::
          pad6 (floatN A E % 1000000)) = 0 then 0
      else encodeMagBits
        (nearestFloatMag (parseFixed (natDigits (floatN A E / 1000000) ++ '.' ::
          pad6 (floatN A E % 1000000)))).1
        (nearestFloatMag (parseFixed (natDigits (floatN A E / 1000000) ++ '.' ::
          pad6 (floatN A E % 1000000)))).2 := by
    unfold strtofMagBits
    rw [if_neg (by rw [hhead]; simp [hni]), if_neg (by rw [hhead]; simp [hnn])]
  have hparse : parseFixed (natDigits (floatN A E / 1000000) ++ '.' ::
      pad6 (floatN A E % 1000000)) = floatN A E := by
    rw [parseFixed_format]
    omega
  rw [hsm, hparse]
  by_cases hN0 : floatN A E = 0
  · rw [if_pos hN0, hN0]
    exact ⟨by norm_num, by decide⟩
  · rw [if_neg hN0, nearestFloatMag_snd]
    obtain ⟨N, hNdef⟩ : ∃ n, n = floatN A E := ⟨_, rfl⟩
    rw [← hNdef] at hsm hparse hhead hN0 ⊢
    have hN1 : 1 ≤ N := by omega
    have hvclose := floatN_close A E
    rw [← hNdef] at hvclose
    have hvA : floatQ A E = (A : ℚ) * 2 ^ E := rfl
    have htv : |(N : ℚ) / 1000000 - (A : ℚ) * 2 ^ E| ≤ 1 / (2 * 1000000) := by
      have heq : (N : ℚ) / 1000000 - (A : ℚ) * 2 ^ E =
          ((N : ℚ) - floatQ A E * 1000000) / 1000000 := by
        rw [hvA]
        field_simp
        ring
      rw [heq, abs_div, abs_of_pos (by norm_num : (0:ℚ) < 1000000),
        div_le_div_iff (by norm_num) (by norm_num)]
      linarith [hvclose]
    obtain ⟨hl, hh⟩ := ilog2Frac_spec N hN1
    have hl' : (2:ℚ) ^ ilog2Frac N ≤ (N : ℚ) / 1000000 := by
      rw [le_div_iff (by norm_num : (0:ℚ) < 1000000)]
      exact hl
    have hh' : (N : ℚ) / 1000000 < 2 ^ (ilog2Frac N + 1) := by
      rw [div_lt_iff (by norm_num : (0:ℚ) < 1000000)]
      exact hh
    by_cases hcoarse : -19 ≤ E
    · -- above 2^-19 the decimal has more precision than the float:
      -- the parse recovers A and E exactly
      have hAn : 2 ^ 23 ≤ A := by
        rcases hnorm with h | h
        · exact h
        · omega
      have hP : (0:ℚ) < 2 ^ E := by positivity
      have h2E19 : (1:ℚ) / 1000000 < 2 ^ E := by
        have hv19 : (2:ℚ) ^ (-19 : Int) = 1 / 524288 := by
          rw [show ((-19 : Int)) = -((19 : Nat) : Int) by rfl, zpow_neg, zpow_natCast]
          norm_num
        have hle : (2:ℚ) ^ (-19 : Int) ≤ 2 ^ E :=
          zpow_le_zpow_right₀ (by norm_num) (by omega)
        rw [hv19] at hle
        linarith
    -- the binade of the printed value is E + 23
      have hsplit23 : (2:ℚ) ^ (E + 23) = 8388608 * 2 ^ E := by
        rw [zpow_add₀ (by norm_num : (2:ℚ) ≠ 0), show ((23 : Int)) = ((23 : Nat) : Int) by rfl,
          zpow_natCast]
        norm_num
        ring
      have hsplit24 : (2:ℚ) ^ (E + 24) = 16777216 * 2 ^ E := by
        rw [zpow_add₀ (by norm_num : (2:ℚ) ≠ 0), show ((24 : Int)) = ((24 : Nat) : Int) by rfl,
          zpow_natCast]
        norm_num
        ring
      have hbin : (2:ℚ) ^ (E + 23) ≤ (N : ℚ) / 1000000 ∧
          (N : ℚ) / 1000000 < 2 ^ (E + 23 + 1) := by
        by_cases hb : A = 2 ^ 23
        · have hexact : (N : ℚ) = floatQ A E * 1000000 := by
            rw [hNdef]
            by_cases hE0 : 0 ≤ E
            · exact floatN_exact A E hE0
            · apply floatN_exact_dvd A E (by omega)
              rw [hb]
              exact (pow_dvd_pow 2 (by omega : (-E).toNat ≤ 23)).mul_right 1000000
          have hteq : (N : ℚ) / 1000000 = floatQ A E := by
            rw [hexact]
            field_simp
          have hv2 : floatQ A E = 2 ^ (E + 23) := by
            rw [hvA, hb, hsplit23]
            norm_num
          rw [hteq, hv2]
          refine ⟨le_refl _, ?_⟩
          have := zpow_le_zpow_right₀ (by norm_num : (1:ℚ) ≤ 2)
            (show E + 23 + 1 ≤ E + 23 + 1 by omega)
          have hstep : (2:ℚ) ^ (E + 23 + 1) = 2 ^ (E + 23) * 2 := by
            rw [zpow_add₀ (by norm_num : (2:ℚ) ≠ 0) (E + 23) 1, zpow_one]
          have hpos : (0:ℚ) < 2 ^ (E + 23) := by positivity
          rw [hstep]
          linarith
        · have hA1 : 2 ^ 23 + 1 ≤ A := by omega
          have hA1Q : (8388609 : ℚ) ≤ (A : ℚ) := by exact_mod_cast hA1
          have hA2Q : (A : ℚ) ≤ 16777215 := by
            have h : A ≤ 16777215 := by omega
            exact_mod_cast h
          obtain ⟨hd1, hd2⟩ := abs_le.mp htv
          constructor
          · rw [hsplit23]
            nlinarith [mul_le_mul_of_nonneg_right hA1Q (le_of_lt hP)]
          · rw [show E + 23 + 1 = E + 24 by ring, hsplit24]
            nlinarith [mul_le_mul_of_nonneg_right hA2Q (le_of_lt hP)]
      have hk : ilog2Frac N = E + 23 := zpow_binade_unique hl' hh' hbin.1 hbin.2
      have hAw : (nearestFloatMag N).1 = A := by
        rw [nearestFloatMag_fst, hk, show E + 23 - 23 = E by ring]
        by_cases hE0 : 0 ≤ E
        · rw [if_pos hE0]
          apply roundHalfEven_eq_of_close _ _ _ (by positivity)
          have hden : ((1000000 * 2 ^ E.toNat : Nat) : ℚ) = 1000000 * 2 ^ E := by
            push_cast
            rw [← zpow_natCast (2:ℚ) E.toNat, Int.toNat_of_nonneg hE0]
          rw [hden]
          have hval : (N : ℚ) / (1000000 * 2 ^ E) = (N : ℚ) / 1000000 / 2 ^ E := by
            rw [div_div]
          rw [hval]
          have heq : (N : ℚ) / 1000000 / 2 ^ E - (A : ℚ) =
              ((N : ℚ) / 1000000 - (A : ℚ) * 2 ^ E) / 2 ^ E := by
            rw [sub_div, mul_div_assoc, div_self (ne_of_gt hP), mul_one]
          rw [heq, abs_div, abs_of_pos hP, div_lt_iff hP]
          have := htv
          linarith [htv, h2E19, hP]
        · rw [if_neg hE0]
          apply roundHalfEven_eq_of_close _ _ _ (by norm_num)
          push_cast
          have h2F : ((2:ℚ) ^ ((-E).toNat : Nat)) = 2 ^ (-E : Int) := by
            rw [← zpow_natCast (2:ℚ) (-E).toNat, Int.toNat_of_nonneg (by omega)]
          rw [h2F]
          have hz : (2:ℚ) ^ E * 2 ^ (-E : Int) = 1 := by
            rw [← zpow_add₀ (by norm_num : (2:ℚ) ≠ 0)]
            simp
          have hPn : (0:ℚ) < 2 ^ (-E : Int) := by positivity
          have heq : (N : ℚ) * 2 ^ (-E : Int) / 1000000 - (A : ℚ) =
              ((N : ℚ) / 1000000 - (A : ℚ) * 2 ^ E) * 2 ^ (-E : Int) := by
            have hexp : ((N : ℚ) / 1000000 - (A : ℚ) * 2 ^ E) * 2 ^ (-E : Int) =
                (N : ℚ) * 2 ^ (-E : Int) / 1000000 -
                  (A : ℚ) * ((2:ℚ) ^ E * 2 ^ (-E : Int)) := by
              ring
            rw [hexp, hz, mul_one]
          rw [heq, abs_mul, abs_of_pos hPn]
          have hmul := mul_lt_mul_of_pos_right h2E19 hPn
          rw [hz] at hmul
          have habs := abs_le.mp htv
          nlinarith [habs.1, habs.2, hPn, hmul]
      rw [hAw, hk, show E + 23 - 23 = E by ring]
      obtain ⟨hs0, hf255, hsigA, hexpE, hlt⟩ := encodeMagBits_decode A E hAn hA hEl hEu
      refine ⟨hlt, ?_⟩
      rw [fmtFloatBits_finite _ hf255, hs0, hsigA, hexpE, ← hNdef]
      simp
    · -- below 2^-20 every float of the binade prints to the same
      -- six-digit decimal: the parse lands within a half-ulp scaled
      -- by 10^6, which reformats to the same N
      have hE20 : E ≤ -20 := by omega
      have hv20 : (2:ℚ) ^ (-20 : Int) = 1 / 1048576 := by
        rw [show ((-20 : Int)) = -((20 : Nat) : Int) by rfl, zpow_neg, zpow_natCast]
        norm_num
      have hP : (0:ℚ) < 2 ^ E := by positivity
      have hE2 : (2:ℚ) ^ E ≤ 1 / 1048576 := by
        have h := zpow_le_zpow_right₀ (by norm_num : (1:ℚ) ≤ 2) (show E ≤ -20 by omega)
        rwa [hv20] at h
      have hA2Q : (A : ℚ) ≤ 16777215 := by
        have h : A ≤ 16777215 := by omega
        exact_mod_cast h
      have hvle : (A : ℚ) * 2 ^ E ≤ 16777215 / 1048576 := by
        calc (A : ℚ) * 2 ^ E ≤ 16777215 * (1 / 1048576) :=
              mul_le_mul hA2Q hE2 (le_of_lt hP) (by norm_num)
          _ = 16777215 / 1048576 := by norm_num
      have ht16 : (N : ℚ) / 1000000 < 16 := by
        obtain ⟨hd1, hd2⟩ := abs_le.mp htv
        linarith
      have htpos : (1:ℚ) / 1000000 ≤ (N : ℚ) / 1000000 := by
        have h1 : (1:ℚ) ≤ (N : ℚ) := by exact_mod_cast hN1
        linarith
      have hk3 : ilog2Frac N ≤ 3 := by
        by_contra hcon
        push_neg at hcon
        have hge : (2:ℚ) ^ (4 : Int) ≤ 2 ^ ilog2Frac N :=
          zpow_le_zpow_right₀ (by norm_num) (by omega)
        have h4 : (2:ℚ) ^ (4 : Int) = 16 := by
          rw [show ((4 : Int)) = ((4 : Nat) : Int) by rfl, zpow_natCast]
          norm_num
        linarith
      have hkm : -20 ≤ ilog2Frac N := by
        by_contra hcon
        push_neg at hcon
        have hle : (2:ℚ) ^ (ilog2Frac N + 1) ≤ 1 / 1048576 := by
          rw [← hv20]
          exact zpow_le_zpow_right₀ (by norm_num) (by omega)
        linarith
      obtain ⟨hw, hA23w, hA24w⟩ := nearestFloatMag_scaled N hN1
      have hEwle : ilog2Frac N - 23 ≤ -20 := by omega
      have hEwb : (2:ℚ) ^ (ilog2Frac N - 23) ≤ 1 / 1048576 := by
        have h := zpow_le_zpow_right₀ (by norm_num : (1:ℚ) ≤ 2) hEwle
        rwa [hv20] at h
      have hPw : (0:ℚ) < 2 ^ (ilog2Frac N - 23) := by positivity
      have hwt : |((nearestFloatMag N).1 : ℚ) * 2 ^ (ilog2Frac N - 23) -
          (N : ℚ) / 1000000| < 1 / (2 * 1000000) := by
        have heq : ((nearestFloatMag N).1 : ℚ) * 2 ^ (ilog2Frac N - 23) -
            (N : ℚ) / 1000000 =
            (((nearestFloatMag N).1 : ℚ) - (N : ℚ) / 1000000 / 2 ^ (ilog2Frac N - 23)) *
              2 ^ (ilog2Frac N - 23) := by
          field_simp
          ring
        rw [heq, abs_mul, abs_of_pos hPw]
        have hb1 := mul_le_mul_of_nonneg_right hw (le_of_lt hPw)
        linarith [hb1, hEwb, hPw]
      by_cases hbump : (nearestFloatMag N).1 = 2 ^ 24
      · rw [hbump]
        obtain ⟨hs0, hf255, hsig, hexp, hlt⟩ :=
          encodeMagBits_decode_bump (ilog2Frac N - 23) (by omega) (by omega)
        refine ⟨hlt, ?_⟩
        rw [fmtFloatBits_finite _ hf255, hs0, hsig, hexp]
        have hNr : floatN (2 ^ 23) (ilog2Frac N - 23 + 1) = N := by
          apply floatN_eq_of_close _ _ (by omega)
          have hQ : floatQ (2 ^ 23) (ilog2Frac N - 23 + 1) =
              ((nearestFloatMag N).1 : ℚ) * 2 ^ (ilog2Frac N - 23) := by
            rw [floatQ_bump, hbump]
            unfold floatQ
            push_cast
            ring
          rw [hQ]
          have heq2 : ((nearestFloatMag N).1 : ℚ) * 2 ^ (ilog2Frac N - 23) * 1000000 -
              (N : ℚ) =
              (((nearestFloatMag N).1 : ℚ) * 2 ^ (ilog2Frac N - 23) -
                (N : ℚ) / 1000000) * 1000000 := by
            field_simp
          rw [heq2, abs_mul, abs_of_pos (by norm_num : (0:ℚ) < 1000000)]
          linarith [hwt]
        rw [hNr]
        simp
      · have hA24 : (nearestFloatMag N).1 < 2 ^ 24 := by omega
        obtain ⟨hs0, hf255, hsig, hexp, hlt⟩ :=
          encodeMagBits_decode (nearestFloatMag N).1 (ilog2Frac N - 23) hA23w hA24
            (by omega) (by omega)
        refine ⟨hlt, ?_⟩
        rw [fmtFloatBits_finite _ hf255, hs0, hsig, hexp]
        have hNr : floatN (nearestFloatMag N).1 (ilog2Frac N - 23) = N := by
          apply floatN_eq_of_close _ _ (by omega)
          have hQ : floatQ (nearestFloatMag N).1 (ilog2Frac N - 23) =
              ((nearestFloatMag N).1 : ℚ) * 2 ^ (ilog2Frac N - 23) := rfl
          rw [hQ]
          have heq2 : ((nearestFloatMag N).1 : ℚ) * 2 ^ (ilog2Frac N - 23) * 1000000 -
              (N : ℚ) =
              (((nearestFloatMag N).1 : ℚ) * 2 ^ (ilog2Frac N - 23) -
                (N : ℚ) / 1000000) * 1000000 := by
            field_simp
          rw [heq2, abs_mul, abs_of_pos (by norm_num : (0:ℚ) < 1000000)]
          linarith [hwt]
        rw [hNr]
        simp

/-- The full round trip on 32-bit patterns: formatting the strtof
parse of a formatted pattern gives the same text, for every pattern —
finite, zero, subnormal, infinite or nan, of either sign. -/
theorem fmt_parse_fmt (b : Nat) :
    fmtFloatBits (strtofBits (fmtFloatBits b)) = fmtFloatBits b := by
  by_cases hfin : floatExpField b = 255
  · rw [fmtFloatBits_infnan b hfin]
    by_cases hs : floatSignBit b = 1 <;> by_cases hf : floatFrac b = 0
    · rw [if_pos hs, if_pos hf]
      decide
    · rw [if_pos hs, if_neg hf]
      decide
    · rw [if_neg hs, if_pos hf]
      decide
    · rw [if_neg hs, if_neg hf]
      decide
  · rw [fmtFloatBits_finite b hfin]
    have hnorm : 2 ^ 23 ≤ floatSig b ∨ floatExpE b = -149 := by
      by_cases h0 : floatExpField b = 0
      · exact Or.inr (floatExpE_subnormal b h0)
      · exact Or.inl (floatSig_normal b h0)
    obtain ⟨hlt, hfmt⟩ := mag_round_trip (floatSig b) (floatExpE b) (floatSig_lt b)
      (floatExpE_ge b) (floatExpE_le b hfin) hnorm
    obtain ⟨d, hd, hhead⟩ := mag_head_digit
      (floatN (floatSig b) (floatExpE b) / 1000000)
      (floatN (floatSig b) (floatExpE b) % 1000000)
    obtain ⟨-, -, hnd⟩ := digitChar_ne_id d hd
    by_cases hs : floatSignBit b = 1
    · rw [if_pos hs]
      simp only [List.singleton_append]
      have hsb : strtofBits ('-' :: (natDigits (floatN (floatSig b) (floatExpE b) /
          1000000) ++ '.' :: pad6 (floatN (floatSig b) (floatExpE b) % 1000000))) =
          2 ^ 31 + strtofMagBits (natDigits (floatN (floatSig b) (floatExpE b) /
          1000000) ++ '.' :: pad6 (floatN (floatSig b) (floatExpE b) % 1000000)) := rfl
      rw [hsb, fmtFloatBits_neg _ hlt, hfmt]
    · rw [if_neg hs]
      simp only [List.nil_append]
      have hsb : strtofBits (natDigits (floatN (floatSig b) (floatExpE b) / 1000000) ++
          '.' :: pad6 (floatN (floatSig b) (floatExpE b) % 1000000)) =
          strtofMagBits (natDigits (floatN (floatSig b) (floatExpE b) / 1000000) ++
          '.' :: pad6 (floatN (floatSig b) (floatExpE b) % 1000000)) := by
        unfold strtofBits
        rw [if_neg (by rw [hhead]; simp [hnd])]
      rw [hsb, hfmt]

theorem fmt_no_newline (b : Nat) : ∀ c ∈ fmtFloatBits b, (c != '\n') = true := by
  intro c hc
  by_cases hfin : floatExpField b = 255
  · rw [fmtFloatBits_infnan b hfin] at hc
    rcases List.mem_append.mp hc with h | h
    · split at h <;> fin_cases h <;> decide
    · split at h <;> fin_cases h <;> decide
  · rw [fmtFloatBits_finite b hfin] at hc
    rcases List.mem_append.mp hc with h | h
    · split at h <;> fin_cases h <;> decide
    · rcases List.mem_append.mp h with h1 | h1
      · obtain ⟨d, hd, rfl⟩ := mem_natDigits h1
        exact digit_bne_newline hd
      · rcases List.mem_cons.mp h1 with h2 | h2
        · subst h2
          decide
        · obtain ⟨d, hd, rfl⟩ := mem_pad6 h2
          exact digit_bne_newline hd

/-- What strtof reads from an untruncated chunk is exactly the
rendering: the newline stops the scan and no earlier byte is one. -/
theorem floatTextOf_line (b : Nat) :
    floatTextOf (fmtFloatBits b ++ ['\n']) = fmtFloatBits b := by
  unfold floatTextOf
  rw [takeWhile_append_all _ _ (fmt_no_newline b)]
  simp

/-! ## C8 -/

/-- C8 counterexample: the claim says every 12-byte payload yields
exactly 3 newline-terminated lines whose format-parse-format round trip
is byte-identical.  The 12-byte payload of three 2^127 samples yields 3
chunks, but snprintf(val, 20, ..) truncates each 47-byte rendering to
19 bytes and no chunk contains a newline at all, so no line is
newline-terminated and no truncated line can equal a re-rendering. -/
theorem c8_roundtrip_counterexample :
    hugePayload12.length = 12 ∧
    (depthLines hugePayload12 12).length = 3 ∧
    '\n' ∉ depth_out hugePayload12 12 := by decide

/-- C8 amended: every 12-byte payload yields exactly 3 chunks, each the
%f rendering of its sample followed by a newline truncated to its first
19 bytes; whenever the rendering fits within 18 bytes the chunk keeps
its newline and the format-parse-format round trip through strtof
reproduces the chunk byte for byte. -/
theorem c8_twelve_byte_payload (data : List Nat) (i : Nat)
    (_h : data.length = 12) :
    (depthLines data (12 : Int)).length = 3 ∧
    (i < 3 →
      (depthLines data (12 : Int)).getD i [] =
        ((fmtFloatBits (sampleBits data i)) ++ ['\n']).take 19) ∧
    (i < 3 → (fmtFloatBits (sampleBits data i)).length ≤ 18 →
      ((depthLines data (12 : Int)).getD i []).getLast? = some '\n' ∧
      fmtFloatBits (strtofBits (floatTextOf
          ((depthLines data (12 : Int)).getD i []))) ++ ['\n'] =
        (depthLines data (12 : Int)).getD i []) := by
  have hns : depth_nsamples (12 : Int) = 3 := by decide
  have hchunk : ∀ j, j < 3 →
      (depthLines data (12 : Int)).getD j [] =
        ((fmtFloatBits (sampleBits data j)) ++ ['\n']).take 19 := by
    intro j hj
    unfold depthLines
    rw [List.getD_eq_getD_get?, List.get?_map,
      List.get?_range (show j < depth_nsamples (12 : Int) by omega)]
    simp [depthLine]
  refine ⟨by simp [depthLines, hns], fun hi => hchunk i hi, fun hi hfit => ?_⟩
  rw [hchunk i hi]
  rw [List.take_all_of_le (by rw [List.length_append]; simp; omega)]
  exact ⟨List.getLast?_concat _,
    by rw [floatTextOf_line, fmt_parse_fmt]⟩

/-- Witness for C8 amended at the all-zero 12-byte payload: three
chunks, the first is newline-terminated and round-trips. -/
theorem c8_twelve_byte_payload_witness :
    (depthLines (List.replicate 12 0) (12 : Int)).length = 3 ∧
    ((depthLines (List.replicate 12 0) (12 : Int)).getD 0 []).getLast? =
      some '\n' ∧
    fmtFloatBits (strtofBits (floatTextOf
        ((depthLines (List.replicate 12 0) (12 : Int)).getD 0 []))) ++ ['\n'] =
      (depthLines (List.replicate 12 0) (12 : Int)).getD 0 [] :=
  ⟨(c8_twelve_byte_payload (List.replicate 12 0) 0 (by decide)).1,
   ((c8_twelve_byte_payload (List.replicate 12 0) 0 (by decide)).2.2
      (by decide) (by decide)).1,
   ((c8_twelve_byte_payload (List.replicate 12 0) 0 (by decide)).2.2
      (by decide) (by decide)).2⟩

/-! ## C9 -/

/-- C9 counterexample: the claim says end-of-stream, truncated header
and oversized payload declaration are reported as distinct outcomes.
The code returns the same value for all of them: on allZero97 the skip
exhausts the region (end-of-stream), on oversized97 the header declares
4294967295 payload bytes with only 1 byte remaining after the header
(oversized declaration), yet parse_section returns the identical
result (none, 0, 97) in both cases. -/
theorem c9_single_signal_counterexample :
    (skipZeros allZero97 0 97).2 = 0 ∧
    HEADER_SIZE < (skipZeros oversized97 0 97).2 ∧
    (skipZeros oversized97 0 97).2 - HEADER_SIZE <
      beU32At oversized97 ((skipZeros oversized97 0 97).1 + MAGIC_LENGTH) ∧
    parse_section allZero97 0 97 = parse_section oversized97 0 97 ∧
    (parse_section allZero97 0 97).1 = none := by decide

/-- C9 amended: parse_section reports every failure — end-of-stream,
truncated header, oversized payload declaration alike — through the
single signal NULL with the caller state unchanged, so the caller can
not tell the failure kinds apart. -/
theorem c9_failures_collapse (buf : List Nat) (ptr len : Nat)
    (h : (parse_section buf ptr len).1 = none) :
    parse_section buf ptr len = (none, ptr, len) :=
  parse_section_none_eq h

/-- Witness for C9 amended: a call with zero remaining bytes. -/
theorem c9_failures_collapse_witness :
    parse_section allZero97 5 0 = (none, 5, 0) :=
  c9_failures_collapse allZero97 5 0 (by decide)

/-! ## C10 -/

/-- C10 counterexample: the claim says the writes stay within the
20*len/4-byte allocation for every input length.  At len = 0 the
allocation is 0 bytes but depth_string still writes its NUL terminator
at offset 0; at len = 214748365 the int product 20*len wraps to 4, the
allocation is 1 byte, and the loop writes 9 bytes per sample for
53687091 samples. -/
theorem c10_allocation_counterexample :
    ¬ ((depth_writeCount [] 0 : Int) ≤ depth_filelen 0) ∧
    ¬ ((depth_writeCount (List.replicate 214748365 0)
          ((214748365 : Nat) : Int) : Int) ≤
        depth_filelen ((214748365 : Nat) : Int)) := by
  constructor
  · decide
  · intro hle
    have hlen := depth_out_replicate_len 214748365
    have hns : depth_nsamples ((214748365 : Nat) : Int) = 53687091 := by
      rw [nsamples_cast]
    have hfl : depth_filelen ((214748365 : Nat) : Int) = 1 := by
      have hc : ((214748365 : Nat) : Int) = (214748365 : Int) := by
        push_cast
      rw [hc]
      decide
    rw [hfl] at hle
    unfold depth_writeCount at hle
    rw [hlen, hns] at hle
    omega

/-- C10 amended: for every payload and every length len with 1 ≤ len
and 20*len below 2^31 (no int overflow in the allocation size), every
emitted chunk is at most 19 bytes long and all writes of depth_string,
the NUL terminator included, stay within the 20*len/4-byte
allocation. -/
theorem c10_snprintf_bounds (data : List Nat) (len : Int) (i : Nat)
    (h1 : 1 ≤ len) (h2 : 20 * len < 2 ^ 31) :
    ((depthLines data len).getD i []).length ≤ 19 ∧
    (depth_writeCount data len : Int) ≤ depth_filelen len := by
  constructor
  · by_cases hi : i < depth_nsamples len
    · unfold depthLines
      rw [List.getD_eq_getD_get?, List.get?_map, List.get?_range hi]
      exact depthLine_length_le data i
    · unfold depthLines
      rw [List.getD_eq_getD_get?, List.get?_map,
        List.get?_eq_none.mpr (by simpa using hi)]
      simp
  · rw [depth_filelen_nowrap (by omega) h2]
    have htot := depth_out_length_le data len
    have hns : ((depth_nsamples len : Nat) : Int) = Int.tdiv len 4 :=
      Int.toNat_of_nonneg (Int.tdiv_nonneg (by omega) (by norm_num))
    have hq : Int.tdiv len 4 = len / 4 :=
      Int.tdiv_eq_ediv (by omega) (by norm_num)
    have hT : ((depth_out data len).length : Int) ≤ 19 * (len / 4) := by
      have hcast : ((depth_out data len).length : Int) ≤
          ((19 * depth_nsamples len : Nat) : Int) := by exact_mod_cast htot
      rw [Nat.cast_mul, hns, hq] at hcast
      simpa using hcast
    unfold depth_writeCount
    rw [Nat.cast_max]
    apply max_le
    · omega
    · omega

/-- Witness for C10 amended at a 4-byte payload. -/
theorem c10_snprintf_bounds_witness :
    ((depthLines [1, 2, 3, 4] 4).getD 0 []).length ≤ 19 ∧
    (depth_writeCount [1, 2, 3, 4] 4 : Int) ≤ depth_filelen 4 :=
  c10_snprintf_bounds [1, 2, 3, 4] 4 0 (by norm_num) (by norm_num)
